import Mathlib

/-!
Verification of the GitSim repository core against its specification.

This file shallowly embeds the Python sources:
  * `src/models.py`   — `Commit`, `Branch`, `Repo` (init / commit / branch /
    checkout / to_graph / merge and the inner `is_ancestor` traversal);
  * `src/layout_engine.py` — `LayoutEngine.compute_layout` and its stages;
  * `src/visualizer.py`    — `GraphVisualizer.compute_layout`;
  * `src/time_line.py`     — `Timeline`, `build_timeline`, `TimelineViewer`
    navigation (`on_right` / `on_left`).

Embedding conventions:
  * Python's `str(self._next_id)` commit hashes are modelled by the underlying
    natural number; `str : Nat -> String` is injective and the code only ever
    uses hashes as dictionary keys and for equality tests, so this is faithful.
    Where the projection emits string node ids we apply `toString`.
  * Python dicts (insertion ordered, unique keys) are modelled by association
    lists together with a set-item helper that overwrites in place or appends.
  * `Commit.parents` holds parent hashes resolved through the registry, the
    representation the specification's design notes prescribe; commits are
    immutable and registered before their children, so resolution agrees with
    the Python object references.  `Commit.timestamp` is omitted: no operation
    or claim reads it.
  * Exceptions are modelled by returning `Except RepoError _ × Repo`: the
    returned repository is the state at the moment of the raise, with the
    statements translated in source order, so "no partial mutation" is a
    provable property rather than an artifact of the embedding.
  * Python float coordinates are modelled by `ℚ`.  Every coordinate the layout
    code produces is a small integer multiple of 0.6 (or of 0.5) shifted by
    such multiples, and IEEE doubles are exact on these values at the scales
    involved, so rational arithmetic models the float arithmetic exactly.
-/

/-- Commit record from `models.py` (`hash`, `message`, `parents`); parent
references are stored as hashes resolved through the registry. -/
structure Commit where
  hash : Nat
  message : String
  parents : List Nat
deriving DecidableEq, Repr

/-- Branch record from `models.py`: a name and a nullable commit pointer. -/
structure Branch where
  name : String
  commit : Option Nat
deriving DecidableEq, Repr

/-- Error taxonomy of the specification (§7).  The Python code raises
`RuntimeError("Repo is not initialized")` for `notInitialized` and `ValueError`
with distinguishing messages for the other three. -/
inductive RepoError where
  | notInitialized
  | branchExists (name : String)
  | branchNotFound (name : String)
  | emptyBranch (name : String)
deriving DecidableEq, Repr

/-- Node kind of the projection (`"commit" | "branch" | "head"`). -/
inductive NodeKind where
  | commit
  | branch
  | head
deriving DecidableEq, Repr

/-- Edge kind of the projection (`"parent" | "points_to"`). -/
inductive EdgeKind where
  | parent
  | pointsTo
deriving DecidableEq, Repr

/-- `GraphNode` dataclass from `models.py`. -/
structure GraphNode where
  id : String
  kind : NodeKind
  label : String
deriving DecidableEq, Repr

/-- `GraphEdge` dataclass from `models.py`. -/
structure GraphEdge where
  source : String
  target : String
  kind : EdgeKind
deriving DecidableEq, Repr

/-- `Repo` state: commit registry (insertion-ordered dict id -> Commit),
branch dict (insertion-ordered name -> Branch, here a list of `Branch` records
carrying their keys), the HEAD pointer, and the id counter.  Python's `head`
holds a reference aliasing the dict entry of the active branch; we store the
branch's name and read/write through the dict, which is observationally the
same because `checkout` only ever installs dict entries into `head`. -/
structure Repo where
  commits : List Commit
  branches : List Branch
  head : Option String
  nextId : Nat
deriving DecidableEq, Repr

/-- `Repo.__init__`: empty maps, no HEAD, counter starts at 1. -/
def Repo.initial : Repo :=
  { commits := [], branches := [], head := none, nextId := 1 }

/-- Dictionary set-item for the branch dict: overwrite the entry with the same
name in place, else append (Python dict assignment semantics). -/
def setBranch (bs : List Branch) (b : Branch) : List Branch :=
  if bs.any (fun x => x.name == b.name) then
    bs.map (fun x => if x.name == b.name then b else x)
  else
    bs ++ [b]

/-- Dictionary set-item for the commit registry. -/
def setCommit (cs : List Commit) (c : Commit) : List Commit :=
  if cs.any (fun x => x.hash == c.hash) then
    cs.map (fun x => if x.hash == c.hash then c else x)
  else
    cs ++ [c]

/-- Dictionary lookup `self.branches[name]` / `name in self.branches`. -/
def Repo.findBranch (r : Repo) (name : String) : Option Branch :=
  r.branches.find? (fun b => b.name == name)

/-- Registry lookup by commit hash. -/
def Repo.findCommit (r : Repo) (h : Nat) : Option Commit :=
  r.commits.find? (fun c => c.hash == h)

/-- The commit pointer of the named branch (`branch.commit`). -/
def Repo.branchCommit (r : Repo) (name : String) : Option Nat :=
  (r.findBranch name).bind (fun b => b.commit)

/-- Re-point the named branch's `commit` field (the effect of
`self.head.commit = x` through the alias). -/
def Repo.setBranchCommit (r : Repo) (name : String) (c : Option Nat) : Repo :=
  { r with branches :=
      r.branches.map (fun b => if b.name == name then { b with commit := c } else b) }

/-- `Repo.init`: no-op when already initialized (head set or any branch
present); otherwise create `main` with a null commit pointer and set HEAD. -/
def Repo.init (r : Repo) : Repo :=
  if r.head.isSome || !r.branches.isEmpty then r
  else
    { r with branches := setBranch r.branches { name := "main", commit := none },
             head := some "main" }

/-- `Repo.commit`: raise if uninitialized; otherwise create a commit whose
parent list is the head branch's commit (if any), register it, advance the
counter, and re-point the head branch. -/
def Repo.commit (r : Repo) (message : String) : Except RepoError Commit × Repo :=
  match r.head with
  | none => (Except.error RepoError.notInitialized, r)
  | some hname =>
    let parentCommit := r.branchCommit hname
    let parents := match parentCommit with
      | some p => [p]
      | none => []
    let commitHash := r.nextId
    let newCommit : Commit := { hash := commitHash, message := message, parents := parents }
    let r1 := { r with nextId := r.nextId + 1 }
    let r2 := { r1 with commits := setCommit r1.commits newCommit }
    let r3 := r2.setBranchCommit hname (some commitHash)
    (Except.ok newCommit, r3)

/-- `Repo.branch`: raise if uninitialized or the name exists; otherwise create
a branch at the current head commit without moving HEAD. -/
def Repo.branch (r : Repo) (name : String) : Except RepoError Branch × Repo :=
  match r.head with
  | none => (Except.error RepoError.notInitialized, r)
  | some hname =>
    if r.branches.any (fun b => b.name == name) then
      (Except.error (RepoError.branchExists name), r)
    else
      let newBranch : Branch := { name := name, commit := r.branchCommit hname }
      (Except.ok newBranch, { r with branches := setBranch r.branches newBranch })

/-- `Repo.checkout`: raise if the name is absent (this is the only check the
source performs — there is no initialization check); otherwise move HEAD. -/
def Repo.checkout (r : Repo) (name : String) : Except RepoError Unit × Repo :=
  if r.branches.any (fun b => b.name == name) then
    (Except.ok (), { r with head := some name })
  else
    (Except.error (RepoError.branchNotFound name), r)

/-- Parents of the commit with the given hash, resolved through the registry
(empty when the hash is unregistered, which cannot happen in reachable
states). -/
def parentsOf (cs : List Commit) (h : Nat) : List Nat :=
  match cs.find? (fun c => c.hash == h) with
  | some c => c.parents
  | none => []

/-- Total number of parent references in the registry; used to bound the
traversal of `is_ancestor`. -/
def totalParents (cs : List Commit) : Nat :=
  (cs.map (fun c => c.parents.length)).sum

/-- Fuel-indexed embedding of the `is_ancestor` traversal inside `Repo.merge`:
`visited` is the memo set, the stack holds pending hashes with the top first
(Python pops from the tail of `queue` and `extend`s parents, hence the
`reverse`).  Python: pop; skip if visited; mark visited; compare to the target;
push parents.  `none` means the fuel ran out — `ancSearch_terminates` below
shows a computable amount of fuel always suffices. -/
def ancSearch (cs : List Commit) (target : Nat) :
    Nat → List Nat → List Nat → Option Bool
  | 0, _, _ => none
  | _ + 1, _, [] => some false
  | fuel + 1, visited, h :: rest =>
    if h ∈ visited then
      ancSearch cs target fuel visited rest
    else
      let visited1 := h :: visited
      if h = target then some true
      else ancSearch cs target fuel visited1 ((parentsOf cs h).reverse ++ rest)

/-- Bound on the number of traversal steps remaining from a given state: each
step either removes a registered hash from the unvisited pool (at the price of
pushing at most `totalParents` entries) or shortens the stack. -/
def ancMeasure (cs : List Commit) (visited stack : List Nat) : Nat :=
  (cs.filter (fun c => decide (¬ c.hash ∈ visited))).length * (totalParents cs + 1)
    + stack.length

/-- `is_ancestor(commit, potential_ancestor)` from `Repo.merge`: does the
traversal of `startHash`'s transitive parent closure reach `target`?  Run with
provably sufficient fuel. -/
def isAncestor (cs : List Commit) (startHash target : Nat) : Bool :=
  (ancSearch cs target (ancMeasure cs [] [startHash] + 1) [] [startHash]).getD false

/-- `Repo.merge`: the decision sequence of the source, in statement order —
initialization check, branch lookup, empty-target check, empty-current
fast-forward, same-commit no-op, `is_ancestor(target, current)` fast-forward,
otherwise a two-parent merge commit.  The source defaults `message` to
"Merge commit"; callers here always pass it explicitly. -/
def Repo.merge (r : Repo) (branchName : String) (message : String) :
    Except RepoError Commit × Repo :=
  match r.head with
  | none => (Except.error RepoError.notInitialized, r)
  | some hname =>
    match r.findBranch branchName with
    | none => (Except.error (RepoError.branchNotFound branchName), r)
    | some targetBranch =>
      let currentCommit : Option Commit := (r.branchCommit hname).bind r.findCommit
      let targetCommit : Option Commit := targetBranch.commit.bind r.findCommit
      match targetCommit with
      | none => (Except.error (RepoError.emptyBranch branchName), r)
      | some target =>
        match currentCommit with
        | none => (Except.ok target, r.setBranchCommit hname (some target.hash))
        | some current =>
          if current.hash = target.hash then
            (Except.ok current, r)
          else if isAncestor r.commits target.hash current.hash then
            (Except.ok target, r.setBranchCommit hname (some target.hash))
          else
            let mergeHash := r.nextId
            let mergeCommit : Commit :=
              { hash := mergeHash, message := message,
                parents := [current.hash, target.hash] }
            let r1 := { r with nextId := r.nextId + 1 }
            let r2 := { r1 with commits := setCommit r1.commits mergeCommit }
            let r3 := r2.setBranchCommit hname (some mergeHash)
            (Except.ok mergeCommit, r3)

/-- `Repo.to_graph`: HEAD node and edge (when HEAD is set), one node per
branch plus a `points_to` edge when its commit is non-null, one node per
registered commit plus one `parent` edge per parent reference, in the
source's emission order. -/
def Repo.toGraph (r : Repo) : List GraphNode × List GraphEdge :=
  let headNodes : List GraphNode := match r.head with
    | some _ => [{ id := "HEAD", kind := NodeKind.head, label := "HEAD" }]
    | none => []
  let headEdges : List GraphEdge := match r.head with
    | some hname => [{ source := "HEAD", target := hname, kind := EdgeKind.pointsTo }]
    | none => []
  let branchNodes : List GraphNode :=
    r.branches.map (fun b => { id := b.name, kind := NodeKind.branch, label := b.name })
  let branchEdges : List GraphEdge :=
    r.branches.flatMap (fun b =>
      match b.commit with
      | some h => [{ source := b.name, target := toString h, kind := EdgeKind.pointsTo }]
      | none => [])
  let commitNodes : List GraphNode :=
    r.commits.map (fun c =>
      { id := toString c.hash, kind := NodeKind.commit, label := toString c.hash })
  let parentEdges : List GraphEdge :=
    r.commits.flatMap (fun c =>
      c.parents.map (fun p =>
        { source := toString c.hash, target := toString p, kind := EdgeKind.parent }))
  (headNodes ++ branchNodes ++ commitNodes, headEdges ++ branchEdges ++ parentEdges)

/-- Command variants the timeline driver can apply (`command.py` names an
operation plus named parameters; the closed set the spec prescribes). -/
inductive Op where
  | opInit
  | opCommit (message : String)
  | opBranch (name : String)
  | opCheckout (name : String)
  | opMerge (branchName : String) (message : String)
deriving DecidableEq, Repr

/-- Apply one operation, `none` when it raises. -/
def applyOp (r : Repo) : Op → Option Repo
  | Op.opInit => some r.init
  | Op.opCommit m => match r.commit m with
    | (Except.ok _, r1) => some r1
    | (Except.error _, _) => none
  | Op.opBranch n => match r.branch n with
    | (Except.ok _, r1) => some r1
    | (Except.error _, _) => none
  | Op.opCheckout n => match r.checkout n with
    | (Except.ok _, r1) => some r1
    | (Except.error _, _) => none
  | Op.opMerge n m => match r.merge n m with
    | (Except.ok _, r1) => some r1
    | (Except.error _, _) => none

/-- Run a sequence of operations, succeeding only when every step succeeds. -/
def runOps (r : Repo) (ops : List Op) : Option Repo :=
  ops.foldlM applyOp r

theorem find?_map_update (bs : List Branch) (n : String) (c : Option Nat) (b : Branch)
    (h : bs.find? (fun x => x.name == n) = some b) :
    (bs.map (fun x => if x.name == n then { x with commit := c } else x)).find?
        (fun x => x.name == n) = some { b with commit := c } := by
  induction bs with
  | nil => simp at h
  | cons x xs ih =>
    by_cases hx : x.name = n
    · simp [List.find?_cons, hx] at h ⊢
      subst h
      exact hx.symm
    · simp only [List.map_cons, List.find?_cons] at h ⊢
      have hpred : (x.name == n) = false := by simpa using hx
      rw [hpred] at h
      rw [if_neg (by simpa using hx)]
      rw [hpred]
      exact ih h

theorem branchCommit_setBranchCommit (r : Repo) (n : String) (c : Option Nat)
    (b : Branch) (h : r.findBranch n = some b) :
    (r.setBranchCommit n c).branchCommit n = c := by
  unfold Repo.branchCommit Repo.findBranch Repo.setBranchCommit at *
  have := find?_map_update r.branches n c b h
  simp only at this ⊢
  rw [this]
  rfl

theorem setCommit_eq_append (cs : List Commit) (c : Commit)
    (h : ∀ x ∈ cs, x.hash ≠ c.hash) : setCommit cs c = cs ++ [c] := by
  unfold setCommit
  rw [if_neg]
  simp only [List.any_eq_true, beq_iff_eq]
  push_neg
  exact h

/-- Shared description of the merge-commit branch of `Repo.merge`: whenever the
traversal from the target does not reach the current commit and the two differ,
the source falls through to allocating a two-parent merge commit. -/
theorem merge_divergent (r : Repo) (hname bName msg : String) (tb : Branch)
    (current target : Commit)
    (hhead : r.head = some hname)
    (htb : r.findBranch bName = some tb)
    (htc : tb.commit.bind r.findCommit = some target)
    (hcc : (r.branchCommit hname).bind r.findCommit = some current)
    (hne : ¬ current.hash = target.hash)
    (hanc : isAncestor r.commits target.hash current.hash = false) :
    r.merge bName msg =
      (Except.ok { hash := r.nextId, message := msg,
                   parents := [current.hash, target.hash] },
       ({ r with nextId := r.nextId + 1,
                 commits := setCommit r.commits
                   { hash := r.nextId, message := msg,
                     parents := [current.hash, target.hash] } }).setBranchCommit
         hname (some r.nextId)) := by
  simp only [Repo.merge, hhead, htb, htc, hcc, hne, hanc]
  simp [hne, hanc]

/-- Repository used to refute claim C1: `init; commit c1; branch f; commit c2`
leaves `main` at commit 2 and `f` at commit 1, so `f`'s commit is a strict
ancestor of `main`'s. -/
def rC1 : Repo :=
  { commits := [{ hash := 1, message := "c1", parents := [] },
                { hash := 2, message := "c2", parents := [1] }],
    branches := [{ name := "main", commit := some 2 }, { name := "f", commit := some 1 }],
    head := some "main",
    nextId := 3 }

/-- C1, counterexample: in `rC1` the target branch `f`'s commit (1) is an
ancestor of the current commit (2) per the parent traversal, both are non-null
and distinct, yet `merge("f")` is not a no-op: it registers a third commit,
re-points `main` to it, and returns it instead of the current commit. -/
theorem claim_C1_counterexample :
    runOps Repo.initial
        [Op.opInit, Op.opCommit "c1", Op.opBranch "f", Op.opCommit "c2"] = some rC1 ∧
    isAncestor rC1.commits 2 1 = true ∧
    rC1.branchCommit "main" = some 2 ∧
    rC1.branchCommit "f" = some 1 ∧
    (rC1.merge "f" "Merge commit").2.commits.length = rC1.commits.length + 1 ∧
    (rC1.merge "f" "Merge commit").2.branchCommit "main" = some 3 ∧
    (rC1.merge "f" "Merge commit").1 =
      Except.ok { hash := 3, message := "Merge commit", parents := [2, 1] } := by
  refine ⟨rfl, rfl, rfl, rfl, rfl, rfl, rfl⟩

/-- C1, amended: when the target branch's commit is an ancestor of the current
head commit (per the traversal) with a distinct id, and — as is always the case
in the acyclic graphs the operations build — the current commit is not in the
target's own parent closure, `merge` is NOT a no-op: it behaves exactly like
the divergent case, allocating a fresh two-parent merge commit with parents
`[current, target]`, registering it, and re-pointing the head branch to it.
Only the equal-id case is a no-op in the source. -/
theorem claim_C1 (r : Repo) (hname bName msg : String) (tb : Branch)
    (current target : Commit)
    (hhead : r.head = some hname)
    (htb : r.findBranch bName = some tb)
    (htc : tb.commit.bind r.findCommit = some target)
    (hcc : (r.branchCommit hname).bind r.findCommit = some current)
    (hne : ¬ current.hash = target.hash)
    (hancestor : isAncestor r.commits current.hash target.hash = true)
    (hanc : isAncestor r.commits target.hash current.hash = false)
    (hfresh : ∀ c ∈ r.commits, c.hash ≠ r.nextId) :
    ∃ m : Commit,
      (r.merge bName msg).1 = Except.ok m ∧
      m.parents = [current.hash, target.hash] ∧
      m.hash = r.nextId ∧
      m.hash ≠ current.hash ∧
      (r.merge bName msg).2.commits = r.commits ++ [m] ∧
      (r.merge bName msg).2.branchCommit hname = some m.hash ∧
      (r.merge bName msg).2.head = r.head := by
  have hmain := merge_divergent r hname bName msg tb current target hhead htb htc hcc hne hanc
  have hcc' := hcc
  rw [Option.bind_eq_some] at hcc'
  obtain ⟨ch, hch, hfc⟩ := hcc'
  have hmem : current ∈ r.commits := by
    unfold Repo.findCommit at hfc
    exact List.mem_of_find?_eq_some hfc
  have hbr : ∃ b, r.findBranch hname = some b := by
    unfold Repo.branchCommit at hch
    rw [Option.bind_eq_some] at hch
    obtain ⟨b, hb, _⟩ := hch
    exact ⟨b, hb⟩
  obtain ⟨b, hb⟩ := hbr
  refine ⟨{ hash := r.nextId, message := msg, parents := [current.hash, target.hash] },
    ?_, rfl, rfl, ?_, ?_, ?_, ?_⟩
  · rw [hmain]
  · exact Ne.symm (hfresh current hmem)
  · rw [hmain]
    show setCommit r.commits _ = _
    exact setCommit_eq_append r.commits _ hfresh
  · rw [hmain]
    exact branchCommit_setBranchCommit _ hname (some r.nextId) b hb
  · rw [hmain]
    rfl

/-- C1, witness: the amended theorem applied to the concrete repository
`rC1`. -/
theorem claim_C1_witness :
    ∃ m : Commit,
      (rC1.merge "f" "M").1 = Except.ok m ∧
      m.parents = [2, 1] ∧
      m.hash = rC1.nextId ∧
      m.hash ≠ 2 ∧
      (rC1.merge "f" "M").2.commits = rC1.commits ++ [m] ∧
      (rC1.merge "f" "M").2.branchCommit "main" = some m.hash ∧
      (rC1.merge "f" "M").2.head = rC1.head :=
  claim_C1 rC1 "main" "f" "M" { name := "f", commit := some 1 }
    { hash := 2, message := "c2", parents := [1] }
    { hash := 1, message := "c1", parents := [] }
    rfl rfl rfl rfl (by decide) rfl rfl (by decide)

/-- C2: with both commits non-null, distinct, and neither reachable from the
other by the parent traversal, `merge` allocates exactly one new commit with
parents `[current, target]` in that order, registers it (the registry becomes
the old registry with exactly the new commit appended), re-points the head
branch's commit field to it, and returns it; HEAD itself does not move. -/
theorem claim_C2 (r : Repo) (hname bName msg : String) (tb : Branch)
    (current target : Commit)
    (hhead : r.head = some hname)
    (htb : r.findBranch bName = some tb)
    (htc : tb.commit.bind r.findCommit = some target)
    (hcc : (r.branchCommit hname).bind r.findCommit = some current)
    (hne : ¬ current.hash = target.hash)
    (hanc1 : isAncestor r.commits target.hash current.hash = false)
    (hanc2 : isAncestor r.commits current.hash target.hash = false)
    (hfresh : ∀ c ∈ r.commits, c.hash ≠ r.nextId) :
    ∃ m : Commit,
      (r.merge bName msg).1 = Except.ok m ∧
      m.parents = [current.hash, target.hash] ∧
      m.hash = r.nextId ∧
      m.message = msg ∧
      (r.merge bName msg).2.commits = r.commits ++ [m] ∧
      (r.merge bName msg).2.branchCommit hname = some m.hash ∧
      (r.merge bName msg).2.head = r.head ∧
      (r.merge bName msg).2.nextId = r.nextId + 1 := by
  have hmain := merge_divergent r hname bName msg tb current target hhead htb htc hcc hne hanc1
  have hbr : ∃ b, r.findBranch hname = some b := by
    have hcc' := hcc
    rw [Option.bind_eq_some] at hcc'
    obtain ⟨ch, hch, _⟩ := hcc'
    unfold Repo.branchCommit at hch
    rw [Option.bind_eq_some] at hch
    obtain ⟨b, hb, _⟩ := hch
    exact ⟨b, hb⟩
  obtain ⟨b, hb⟩ := hbr
  refine ⟨{ hash := r.nextId, message := msg, parents := [current.hash, target.hash] },
    ?_, rfl, rfl, rfl, ?_, ?_, ?_, ?_⟩
  · rw [hmain]
  · rw [hmain]
    show setCommit r.commits _ = _
    exact setCommit_eq_append r.commits _ hfresh
  · rw [hmain]
    exact branchCommit_setBranchCommit _ hname (some r.nextId) b hb
  · rw [hmain]
    rfl
  · rw [hmain]
    rfl

/-- Repository reached by the spec's divergent-merge scenario
`init; commit c1; commit c2; branch f; checkout f; commit c3; checkout main;
commit c4`. -/
def rC2 : Repo :=
  { commits := [{ hash := 1, message := "c1", parents := [] },
                { hash := 2, message := "c2", parents := [1] },
                { hash := 3, message := "c3", parents := [2] },
                { hash := 4, message := "c4", parents := [2] }],
    branches := [{ name := "main", commit := some 4 }, { name := "f", commit := some 3 }],
    head := some "main",
    nextId := 5 }

/-- C2, witness: the divergent-merge scenario of the specification, with the
hypotheses evaluated on the concrete repository. -/
theorem claim_C2_witness :
    ∃ m : Commit,
      (rC2.merge "f" "M").1 = Except.ok m ∧
      m.parents = [4, 3] ∧
      m.hash = rC2.nextId ∧
      m.message = "M" ∧
      (rC2.merge "f" "M").2.commits = rC2.commits ++ [m] ∧
      (rC2.merge "f" "M").2.branchCommit "main" = some m.hash ∧
      (rC2.merge "f" "M").2.head = rC2.head ∧
      (rC2.merge "f" "M").2.nextId = rC2.nextId + 1 :=
  claim_C2 rC2 "main" "f" "M" { name := "f", commit := some 3 }
    { hash := 4, message := "c4", parents := [2] }
    { hash := 3, message := "c3", parents := [2] }
    rfl rfl rfl rfl (by decide) rfl rfl (by decide)

/-- C4, counterexample: `checkout` invoked before `initialize` does not raise a
NotInitializedError-kind error as the claim states; its only check is branch
existence, so on the fresh repository it raises the NotFoundError-kind error
instead. -/
theorem claim_C4_counterexample :
    (Repo.initial.checkout "main").1 = Except.error (RepoError.branchNotFound "main") ∧
    (Repo.initial.checkout "main").1 ≠ Except.error RepoError.notInitialized := by
  refine ⟨rfl, ?_⟩
  intro h
  simp [Repo.checkout, Repo.initial] at h

/-- C4, amended: `merge` of a branch whose commit pointer is null raises an
EmptyBranchError-kind error; `checkout` of a name absent from the branch
mapping raises a NotFoundError-kind error; `commit`, `branch`, and `merge`
invoked before `initialize` raise a NotInitializedError-kind error; `checkout`
invoked before `initialize` raises a NotFoundError-kind error (its only check
is branch existence, and no branches exist yet). -/
theorem claim_C4 :
    (∀ (r : Repo) (hname bName msg : String) (tb : Branch),
      r.head = some hname → r.findBranch bName = some tb → tb.commit = none →
      r.merge bName msg = (Except.error (RepoError.emptyBranch bName), r)) ∧
    (∀ (r : Repo) (name : String), r.findBranch name = none →
      r.checkout name = (Except.error (RepoError.branchNotFound name), r)) ∧
    (∀ (r : Repo) (msg : String), r.head = none →
      (r.commit msg).1 = Except.error RepoError.notInitialized) ∧
    (∀ (r : Repo) (name : String), r.head = none →
      (r.branch name).1 = Except.error RepoError.notInitialized) ∧
    (∀ (r : Repo) (bName msg : String), r.head = none →
      (r.merge bName msg).1 = Except.error RepoError.notInitialized) ∧
    (∀ (r : Repo) (name : String), r.head = none → r.branches = [] →
      (r.checkout name).1 = Except.error (RepoError.branchNotFound name)) := by
  refine ⟨?_, ?_, ?_, ?_, ?_, ?_⟩
  · intro r hname bName msg tb hh htb htc
    simp [Repo.merge, hh, htb, htc]
  · intro r name h
    have hany : r.branches.any (fun b => b.name == name) = false := by
      rw [List.any_eq_false]
      intro x hx
      have := List.find?_eq_none.mp h x hx
      simpa using this
    simp [Repo.checkout, hany]
  · intro r msg h
    simp [Repo.commit, h]
  · intro r name h
    simp [Repo.branch, h]
  · intro r bName msg h
    simp [Repo.merge, h]
  · intro r name _ hb
    simp [Repo.checkout, hb]

/-- Repository with an initialized `main` holding commit 1 and an empty branch
`empty`, reached by `init; branch empty; commit c1`. -/
def rC4 : Repo :=
  { commits := [{ hash := 1, message := "c1", parents := [] }],
    branches := [{ name := "main", commit := some 1 }, { name := "empty", commit := none }],
    head := some "main",
    nextId := 2 }

/-- C4, witness: the amended error contract evaluated on concrete states —
merging the empty branch of `rC4`, checking out a missing name, and invoking
the mutators on the fresh repository. -/
theorem claim_C4_witness :
    rC4.merge "empty" "m" = (Except.error (RepoError.emptyBranch "empty"), rC4) ∧
    rC4.checkout "nope" = (Except.error (RepoError.branchNotFound "nope"), rC4) ∧
    (Repo.initial.commit "m").1 = Except.error RepoError.notInitialized ∧
    (Repo.initial.branch "b").1 = Except.error RepoError.notInitialized ∧
    (Repo.initial.merge "b" "m").1 = Except.error RepoError.notInitialized ∧
    (Repo.initial.checkout "b").1 = Except.error (RepoError.branchNotFound "b") :=
  ⟨claim_C4.1 rC4 "main" "empty" "m" { name := "empty", commit := none } rfl rfl rfl,
   claim_C4.2.1 rC4 "nope" rfl,
   claim_C4.2.2.1 Repo.initial "m" rfl,
   claim_C4.2.2.2.1 Repo.initial "b" rfl,
   claim_C4.2.2.2.2.1 Repo.initial "b" "m" rfl,
   claim_C4.2.2.2.2.2 Repo.initial "b" rfl rfl⟩

/-- C5: every error return of a mutating operation leaves the repository state
exactly as it was — all raises in the source occur before any assignment.
`Repo.init` never raises at all (it is total and returns only a repository), so
the claim is vacuous for it. -/
theorem claim_C5 (r : Repo) (msg name bName mMsg : String) :
    (∀ e rr, r.commit msg = (Except.error e, rr) → rr = r) ∧
    (∀ e rr, r.branch name = (Except.error e, rr) → rr = r) ∧
    (∀ e rr, r.checkout name = (Except.error e, rr) → rr = r) ∧
    (∀ e rr, r.merge bName mMsg = (Except.error e, rr) → rr = r) := by
  refine ⟨?_, ?_, ?_, ?_⟩
  · intro e rr h
    unfold Repo.commit at h
    split at h
    · injection h with h1 h2; exact h2.symm
    · injection h with h1 h2; injection h1
  · intro e rr h
    unfold Repo.branch at h
    split at h
    · injection h with h1 h2; exact h2.symm
    · split at h
      · injection h with h1 h2; exact h2.symm
      · injection h with h1 h2; injection h1
  · intro e rr h
    unfold Repo.checkout at h
    split at h
    · injection h with h1 h2; injection h1
    · injection h with h1 h2; exact h2.symm
  · intro e rr h
    unfold Repo.merge at h
    split at h
    · injection h with h1 h2; exact h2.symm
    · split at h
      · injection h with h1 h2; exact h2.symm
      · dsimp only at h
        split at h
        · injection h with h1 h2; exact h2.symm
        · split at h
          · injection h with h1 h2; injection h1
          · split at h
            · injection h with h1 h2; injection h1
            · split at h
              · injection h with h1 h2; injection h1
              · injection h with h1 h2; injection h1

/-- C5, witness: the atomicity statement applied at concrete failing calls —
`checkout` of a missing branch and `merge` of the empty branch on `rC4`, and
`commit` on the uninitialized repository. -/
theorem claim_C5_witness :
    (rC4.checkout "nope").2 = rC4 ∧
    (rC4.merge "empty" "m").2 = rC4 ∧
    (Repo.initial.commit "x").2 = Repo.initial :=
  ⟨(claim_C5 rC4 "x" "nope" "empty" "m").2.2.1 (RepoError.branchNotFound "nope") _ rfl,
   (claim_C5 rC4 "x" "nope" "empty" "m").2.2.2 (RepoError.emptyBranch "empty") _ rfl,
   (claim_C5 Repo.initial "x" "nope" "empty" "m").1 RepoError.notInitialized _ rfl⟩

theorem lenU_mono (cs : List Commit) (h : Nat) (v : List Nat) :
    (cs.filter (fun c => decide (¬ c.hash ∈ h :: v))).length ≤
      (cs.filter (fun c => decide (¬ c.hash ∈ v))).length := by
  induction cs with
  | nil => simp
  | cons c cst ih =>
    simp only [List.filter_cons]
    by_cases hv : c.hash ∈ v
    · have h1 : decide (¬ c.hash ∈ h :: v) = false := by simp [hv]
      have h2 : decide (¬ c.hash ∈ v) = false := by simp [hv]
      simp only [h1, h2, Bool.false_eq_true, if_false]
      exact ih
    · have h2 : decide (¬ c.hash ∈ v) = true := by simp [hv]
      simp only [h2, if_true]
      by_cases hh : c.hash ∈ h :: v
      · have h1 : decide (¬ c.hash ∈ h :: v) = false := by simp [hh]
        simp only [h1, Bool.false_eq_true, if_false, List.length_cons]
        exact Nat.le_succ_of_le ih
      · have h1 : decide (¬ c.hash ∈ h :: v) = true := by simp [hh]
        simp only [h1, if_true, List.length_cons]
        exact Nat.succ_le_succ ih

theorem lenU_strict (cs : List Commit) (h : Nat) (v : List Nat)
    (hnv : ¬ h ∈ v) (c0 : Commit) (hc0 : c0 ∈ cs) (hh0 : c0.hash = h) :
    (cs.filter (fun c => decide (¬ c.hash ∈ h :: v))).length <
      (cs.filter (fun c => decide (¬ c.hash ∈ v))).length := by
  induction cs with
  | nil => simp at hc0
  | cons c cst ih =>
    simp only [List.filter_cons]
    by_cases hch : c.hash = h
    · have h1 : decide (¬ c.hash ∈ h :: v) = false := by simp [hch]
      have h2 : decide (¬ c.hash ∈ v) = true := by simp [hch, hnv]
      simp only [h1, h2, Bool.false_eq_true, if_false, if_true, List.length_cons]
      exact Nat.lt_succ_of_le (lenU_mono cst h v)
    · rcases List.mem_cons.mp hc0 with hc | hc
      · exact absurd (hc ▸ hh0) hch
      · have heq : decide (¬ c.hash ∈ h :: v) = decide (¬ c.hash ∈ v) := by
          simp [List.mem_cons, hch]
        rw [heq]
        by_cases hcv : decide (¬ c.hash ∈ v) = true
        · simp only [hcv, if_true, List.length_cons]
          exact Nat.succ_lt_succ (ih hc)
        · rw [Bool.not_eq_true] at hcv
          simp only [hcv, Bool.false_eq_true, if_false]
          exact ih hc

theorem parentsOf_length_le (cs : List Commit) (h : Nat) :
    (parentsOf cs h).length ≤ totalParents cs := by
  unfold parentsOf
  cases hf : cs.find? (fun c => c.hash == h) with
  | none => simp
  | some c =>
    have hmem : c ∈ cs := List.mem_of_find?_eq_some hf
    unfold totalParents
    exact List.single_le_sum (fun x _ => Nat.zero_le x) _ (List.mem_map_of_mem _ hmem)

theorem ancMeasure_decreases (cs : List Commit) (h : Nat) (visited rest : List Nat)
    (hnv : ¬ h ∈ visited) :
    ancMeasure cs (h :: visited) ((parentsOf cs h).reverse ++ rest) <
      ancMeasure cs visited (h :: rest) := by
  unfold ancMeasure
  by_cases hreg : ∃ c ∈ cs, c.hash = h
  · obtain ⟨c0, hc0, hh0⟩ := hreg
    have hU : (cs.filter (fun c => decide (¬ c.hash ∈ h :: visited))).length <
        (cs.filter (fun c => decide (¬ c.hash ∈ visited))).length :=
      lenU_strict cs h visited hnv c0 hc0 hh0
    have hp : (parentsOf cs h).length ≤ totalParents cs := parentsOf_length_le cs h
    simp only [List.length_append, List.length_reverse, List.length_cons]
    nlinarith [hU, hp]
  · have hpe : parentsOf cs h = [] := by
      unfold parentsOf
      have : cs.find? (fun c => c.hash == h) = none := by
        rw [List.find?_eq_none]
        intro x hx
        simp only [beq_iff_eq]
        intro hcontra
        exact hreg ⟨x, hx, hcontra⟩
      rw [this]
    have hU : (cs.filter (fun c => decide (¬ c.hash ∈ h :: visited))).length ≤
        (cs.filter (fun c => decide (¬ c.hash ∈ visited))).length := lenU_mono cs h visited
    rw [hpe]
    simp only [List.reverse_nil, List.nil_append, List.length_cons]
    nlinarith [hU]

/-- C9: the `is_ancestor` traversal terminates on every finite commit graph —
for any registry (including ones with repeated or merge ancestry where many
paths share ancestors, and even cyclic parent structures no reachable state
can build), any memo set and any pending stack, the fuel-indexed search
completes (returns `some` answer) whenever given at least `ancMeasure + 1`
fuel, the bound `isAncestor` itself uses.  The memoized `visited` set is what
makes `ancMeasure` decrease at every step. -/
theorem claim_C9 (cs : List Commit) (target : Nat) :
    ∀ (fuel : Nat) (visited stack : List Nat),
      ancMeasure cs visited stack + 1 ≤ fuel →
      (ancSearch cs target fuel visited stack).isSome = true := by
  intro fuel
  induction fuel with
  | zero => intro visited stack hle; omega
  | succ f ih =>
    intro visited stack hle
    match stack with
    | [] => rfl
    | h :: rest =>
      rw [ancSearch]
      by_cases hv : h ∈ visited
      · rw [if_pos hv]
        apply ih
        unfold ancMeasure at hle ⊢
        simp only [List.length_cons] at hle
        omega
      · rw [if_neg hv]
        by_cases ht : h = target
        · simp only [ht, if_pos rfl]
          rfl
        · simp only [if_neg ht]
          apply ih
          have hdec := ancMeasure_decreases cs h visited rest hv
          omega

/-- Registry with merge ancestry: a diamond where commit 4 reaches commit 1
through both parents 2 and 3. -/
def rC9cs : List Commit :=
  [{ hash := 1, message := "a", parents := [] },
   { hash := 2, message := "b", parents := [1] },
   { hash := 3, message := "c", parents := [1] },
   { hash := 4, message := "m", parents := [2, 3] }]

/-- C9, witness: the termination bound applied to the diamond registry at the
stack `is_ancestor` starts from, together with the concrete traversal result
(the shared ancestor is found despite the two paths). -/
theorem claim_C9_witness :
    ancMeasure rC9cs [] [4] + 1 ≤ ancMeasure rC9cs [] [4] + 1 ∧
    (ancSearch rC9cs 1 (ancMeasure rC9cs [] [4] + 1) [] [4]).isSome = true ∧
    isAncestor rC9cs 4 1 = true :=
  ⟨Nat.le_refl _, claim_C9 rC9cs 1 _ [] [4] (Nat.le_refl _), rfl⟩

/-- C8: the projection emits exactly one head node (and, among points_to
edges, exactly the HEAD-to-head-branch edge followed by one edge per branch
with a non-null commit) iff head is non-null; exactly one branch node per
branch-mapping entry; exactly one commit node per registered commit; and,
among parent edges, exactly one per parent reference of every registered
commit — each category characterized as the full filter of the emitted
lists. -/
theorem claim_C8 (r : Repo) :
    (r.toGraph.1.filter (fun n => n.kind == NodeKind.head) =
      (match r.head with
       | some _ => [{ id := "HEAD", kind := NodeKind.head, label := "HEAD" }]
       | none => [])) ∧
    (r.toGraph.2.filter (fun e => e.kind == EdgeKind.pointsTo) =
      (match r.head with
       | some hname => [{ source := "HEAD", target := hname, kind := EdgeKind.pointsTo }]
       | none => []) ++
      r.branches.filterMap (fun b =>
        b.commit.map (fun h =>
          { source := b.name, target := toString h, kind := EdgeKind.pointsTo }))) ∧
    (r.toGraph.1.filter (fun n => n.kind == NodeKind.branch) =
      r.branches.map (fun b => { id := b.name, kind := NodeKind.branch, label := b.name })) ∧
    (r.toGraph.1.filter (fun n => n.kind == NodeKind.commit) =
      r.commits.map (fun c =>
        { id := toString c.hash, kind := NodeKind.commit, label := toString c.hash })) ∧
    (r.toGraph.2.filter (fun e => e.kind == EdgeKind.parent) =
      r.commits.flatMap (fun c =>
        c.parents.map (fun p =>
          { source := toString c.hash, target := toString p, kind := EdgeKind.parent }))) := by
  have hbe : ∀ bs : List Branch,
      (bs.flatMap fun a => List.filter (fun e => e.kind == EdgeKind.parent)
        (match a.commit with
         | some h => [{ source := a.name, target := toString h, kind := EdgeKind.pointsTo }]
         | none => ([] : List GraphEdge))) = [] := by
    intro bs
    induction bs with
    | nil => rfl
    | cons a bs ih =>
      rw [List.flatMap_cons, ih]
      cases a.commit <;> simp
  have hbp : ∀ bs : List Branch,
      (bs.flatMap fun a => List.filter (fun e => e.kind == EdgeKind.pointsTo)
        (match a.commit with
         | some h => [{ source := a.name, target := toString h, kind := EdgeKind.pointsTo }]
         | none => ([] : List GraphEdge))) =
      bs.filterMap (fun b =>
        b.commit.map (fun h =>
          { source := b.name, target := toString h, kind := EdgeKind.pointsTo })) := by
    intro bs
    induction bs with
    | nil => rfl
    | cons a bs ih =>
      rw [List.flatMap_cons, ih, List.filterMap_cons]
      cases a.commit <;> simp
  have hff : (EdgeKind.parent == EdgeKind.pointsTo) = false := rfl
  refine ⟨?_, ?_, ?_, ?_, ?_⟩ <;>
    · unfold Repo.toGraph
      cases r.head <;>
        simp [List.filter_append, List.filter_map, List.filter_flatMap,
          List.filterMap_eq_map, Function.comp_def, hbe, hbp, hff]

/-- Snapshot captured by `build_timeline`: the projected (nodes, edges) pair. -/
def Snapshot : Type := List GraphNode × List GraphEdge

/-- `Timeline` dataclass from `time_line.py`: the captured snapshots and the
applied commands.  The `command_texts` field (display strings produced by
`format_command`) is pure presentation and is not modelled. -/
structure Timeline where
  snapshots : List Snapshot
  commands : List Op

/-- Snapshot collection loop of `build_timeline`: apply each command and
capture `repo.to_graph()` after it; a raising command aborts construction. -/
def buildSnapshots (r : Repo) : List Op → Option (List Snapshot)
  | [] => some []
  | c :: cs =>
    match applyOp r c with
    | none => none
    | some r1 => (buildSnapshots r1 cs).map (fun rest => r1.toGraph :: rest)

/-- `build_timeline`: `none` when some command raises (Python propagates the
exception and no timeline is constructed). -/
def buildTimeline (r : Repo) (cmds : List Op) : Option Timeline :=
  (buildSnapshots r cmds).map (fun snaps => { snapshots := snaps, commands := cmds })

/-- `TimelineViewer` state: the timeline and the cursor.  Python's `self.index`
is an unbounded int, so the cursor is modelled as `Int`. -/
structure TimelineViewer where
  timeline : Timeline
  index : Int

/-- `TimelineViewer.__init__`: cursor starts at 0. -/
def TimelineViewer.start (t : Timeline) : TimelineViewer :=
  { timeline := t, index := 0 }

/-- `total_steps` property: `len(self.timeline.snapshots)`. -/
def TimelineViewer.totalSteps (v : TimelineViewer) : Nat :=
  v.timeline.snapshots.length

/-- Snapshot `show_current` would hand to the renderer. -/
def TimelineViewer.currentSnapshot (v : TimelineViewer) : Option Snapshot :=
  v.timeline.snapshots.get? v.index.toNat

/-- `on_right`: return unchanged when `index >= total_steps - 1`, else
advance (the render call has no effect on the modelled state). -/
def TimelineViewer.onRight (v : TimelineViewer) : TimelineViewer :=
  if v.index ≥ (v.totalSteps : Int) - 1 then v
  else { v with index := v.index + 1 }

/-- `on_left`: return unchanged when `index <= 0`, else step back. -/
def TimelineViewer.onLeft (v : TimelineViewer) : TimelineViewer :=
  if v.index ≤ 0 then v
  else { v with index := v.index - 1 }

/-- One navigation key press. -/
inductive NavStep where
  | stepRight
  | stepLeft
deriving DecidableEq, Repr

/-- Apply one key press. -/
def navStep (v : TimelineViewer) : NavStep → TimelineViewer
  | NavStep.stepRight => v.onRight
  | NavStep.stepLeft => v.onLeft

/-- Apply a whole sequence of key presses. -/
def navigate (v : TimelineViewer) (steps : List NavStep) : TimelineViewer :=
  steps.foldl navStep v

theorem navStep_timeline (v : TimelineViewer) (d : NavStep) :
    (navStep v d).timeline = v.timeline := by
  cases d <;> simp only [navStep, TimelineViewer.onRight, TimelineViewer.onLeft] <;>
    split <;> rfl

theorem navStep_inv (v : TimelineViewer) (d : NavStep)
    (h : 0 ≤ v.index ∧ v.index ≤ (v.timeline.snapshots.length : Int) - 1) :
    0 ≤ (navStep v d).index ∧
      (navStep v d).index ≤ ((navStep v d).timeline.snapshots.length : Int) - 1 := by
  cases d <;>
    simp only [navStep, TimelineViewer.onRight, TimelineViewer.onLeft,
      TimelineViewer.totalSteps] <;>
    split <;> first
      | exact h
      | (constructor <;> (simp only []; omega))

theorem navigate_inv (steps : List NavStep) :
    ∀ v : TimelineViewer,
      0 ≤ v.index ∧ v.index ≤ (v.timeline.snapshots.length : Int) - 1 →
      0 ≤ (navigate v steps).index ∧
        (navigate v steps).index ≤ ((navigate v steps).timeline.snapshots.length : Int) - 1 := by
  induction steps with
  | nil => intro v h; exact h
  | cons d ds ih =>
    intro v h
    exact ih (navStep v d) (navStep_inv v d h)

theorem navigate_timeline (steps : List NavStep) :
    ∀ v : TimelineViewer, (navigate v steps).timeline = v.timeline := by
  induction steps with
  | nil => intro v; rfl
  | cons d ds ih =>
    intro v
    show (navigate (navStep v d) ds).timeline = _
    rw [ih (navStep v d), navStep_timeline]

/-- C7, amended: for every timeline holding at least one snapshot, every
sequence of `stepForward`/`stepBackward` presses keeps the cursor inside
`[0, length-1]`; moreover `on_right` at the last index and `on_left` at index 0
return the viewer completely unchanged (no wrap-around, and the snapshot
delivered to the renderer is untouched). -/
theorem claim_C7 (t : Timeline) (steps : List NavStep)
    (hlen : 1 ≤ t.snapshots.length) :
    (0 ≤ (navigate (TimelineViewer.start t) steps).index ∧
      (navigate (TimelineViewer.start t) steps).index ≤ (t.snapshots.length : Int) - 1) ∧
    (∀ v : TimelineViewer, v.index = (v.totalSteps : Int) - 1 →
      v.onRight = v ∧ v.onRight.currentSnapshot = v.currentSnapshot) ∧
    (∀ v : TimelineViewer, v.index = 0 →
      v.onLeft = v ∧ v.onLeft.currentSnapshot = v.currentSnapshot) := by
  refine ⟨?_, ?_, ?_⟩
  · have hstart : 0 ≤ (TimelineViewer.start t).index ∧
        (TimelineViewer.start t).index ≤
          ((TimelineViewer.start t).timeline.snapshots.length : Int) - 1 := by
      constructor
      · exact le_refl 0
      · show (0 : Int) ≤ (t.snapshots.length : Int) - 1
        omega
    have h := navigate_inv steps (TimelineViewer.start t) hstart
    have ht : (navigate (TimelineViewer.start t) steps).timeline.snapshots.length =
        t.snapshots.length := by
      rw [navigate_timeline]
      rfl
    rw [ht] at h
    exact h
  · intro v h
    have : v.onRight = v := by
      unfold TimelineViewer.onRight
      rw [if_pos (le_of_eq h.symm)]
    exact ⟨this, by rw [this]⟩
  · intro v h
    have : v.onLeft = v := by
      unfold TimelineViewer.onLeft
      rw [if_pos (le_of_eq h)]
    exact ⟨this, by rw [this]⟩

/-- C7, counterexample: `build_timeline` accepts an empty command list and
produces a timeline with zero snapshots (the spec even requires an absent
`commands` key to yield an empty sequence, not an error); its freshly
constructed viewer has cursor 0, which lies outside the claimed interval
`[0, length-1] = [0, -1]`. -/
theorem claim_C7_counterexample :
    buildTimeline Repo.initial [] = some { snapshots := [], commands := [] } ∧
    (TimelineViewer.start { snapshots := [], commands := [] }).index = 0 ∧
    ¬ ((TimelineViewer.start { snapshots := [], commands := [] }).index ≤
        (({ snapshots := [], commands := [] } : Timeline).snapshots.length : Int) - 1) := by
  refine ⟨rfl, rfl, ?_⟩
  intro h
  simp [TimelineViewer.start] at h

/-- Timeline produced by replaying the single command `init`. -/
def tC7 : Timeline :=
  { snapshots := [Repo.initial.init.toGraph], commands := [Op.opInit] }

/-- C7, witness: the navigation bound applied to the one-snapshot timeline
built from `init`, under a press sequence that hits both boundaries. -/
theorem claim_C7_witness :
    buildTimeline Repo.initial [Op.opInit] = some tC7 ∧
    1 ≤ tC7.snapshots.length ∧
    ((0 ≤ (navigate (TimelineViewer.start tC7)
        [NavStep.stepRight, NavStep.stepLeft, NavStep.stepLeft]).index ∧
      (navigate (TimelineViewer.start tC7)
        [NavStep.stepRight, NavStep.stepLeft, NavStep.stepLeft]).index ≤
        (tC7.snapshots.length : Int) - 1) ∧
    (∀ v : TimelineViewer, v.index = (v.totalSteps : Int) - 1 →
      v.onRight = v ∧ v.onRight.currentSnapshot = v.currentSnapshot) ∧
    (∀ v : TimelineViewer, v.index = 0 →
      v.onLeft = v ∧ v.onLeft.currentSnapshot = v.currentSnapshot)) :=
  ⟨rfl, by decide,
   claim_C7 tC7 [NavStep.stepRight, NavStep.stepLeft, NavStep.stepLeft] (by decide)⟩

/-- Reachability along parent references, resolved through the registry: the
transitive parent closure of the claim's invariant. -/
inductive ReachHash (cs : List Commit) : Nat → Nat → Prop
  | refl (h : Nat) : ReachHash cs h h
  | step (c : Commit) (p t : Nat) (hc : c ∈ cs) (hp : p ∈ c.parents)
      (ht : ReachHash cs p t) : ReachHash cs c.hash t

/-- Inductive invariant of reachable repository states. -/
structure RepoInv (r : Repo) : Prop where
  hashSorted : (r.commits.map (fun c => c.hash)).Pairwise (· < ·)
  hashBound : ∀ c ∈ r.commits, c.hash < r.nextId
  parentsReg : ∀ c ∈ r.commits, ∀ p ∈ c.parents,
    p < c.hash ∧ ∃ c2 ∈ r.commits, c2.hash = p
  branchesReg : ∀ b ∈ r.branches, ∀ h, b.commit = some h →
    ∃ c ∈ r.commits, c.hash = h
  headBranch : ∀ n, r.head = some n → ∃ b ∈ r.branches, b.name = n
  namesNodup : (r.branches.map (fun b => b.name)).Nodup

theorem repoInv_initial : RepoInv Repo.initial := by
  constructor <;> simp [Repo.initial]

theorem names_map_update (bs : List Branch) (n : String) (c : Option Nat) :
    ((bs.map (fun b => if b.name == n then { b with commit := c } else b)).map
      (fun b => b.name)) = bs.map (fun b => b.name) := by
  rw [List.map_map]
  apply List.map_congr_left
  intro b _
  by_cases hb : b.name = n <;> simp [hb]

theorem inv_setBranchCommit (r : Repo) (n : String) (h : Nat)
    (hreg : ∃ c ∈ r.commits, c.hash = h) (hinv : RepoInv r) :
    RepoInv (r.setBranchCommit n (some h)) := by
  constructor
  · exact hinv.hashSorted
  · exact hinv.hashBound
  · exact hinv.parentsReg
  · intro b hb hc hbc
    rcases List.mem_map.mp hb with ⟨b0, hb0, hup⟩
    by_cases h0 : b0.name = n
    · simp only [h0, beq_self_eq_true, if_true] at hup
      rw [← hup] at hbc
      simp at hbc
      exact hbc ▸ hreg
    · simp only [beq_iff_eq, h0, if_false] at hup
      exact hinv.branchesReg b0 hb0 hc (hup ▸ hbc)
  · intro m hm
    rcases hinv.headBranch m hm with ⟨b, hb, hname⟩
    by_cases h0 : b.name = n
    · exact ⟨{ b with commit := some h }, List.mem_map.mpr ⟨b, hb, by simp [h0]⟩, hname⟩
    · exact ⟨b, List.mem_map.mpr ⟨b, hb, by simp [h0]⟩, hname⟩
  · show ((r.branches.map _).map _).Nodup
    rw [names_map_update]
    exact hinv.namesNodup

theorem inv_appendCommit (r : Repo) (msg : String) (ps : List Nat)
    (hps : ∀ p ∈ ps, ∃ c ∈ r.commits, c.hash = p) (hinv : RepoInv r) :
    RepoInv { r with nextId := r.nextId + 1,
                     commits := setCommit r.commits
                       { hash := r.nextId, message := msg, parents := ps } } := by
  have happ : setCommit r.commits { hash := r.nextId, message := msg, parents := ps } =
      r.commits ++ [{ hash := r.nextId, message := msg, parents := ps }] :=
    setCommit_eq_append _ _ (fun x hx => Nat.ne_of_lt (hinv.hashBound x hx))
  rw [happ]
  constructor
  · rw [List.map_append, List.pairwise_append]
    refine ⟨hinv.hashSorted, by simp, ?_⟩
    intro a ha b hb
    rcases List.mem_map.mp ha with ⟨c, hc, hca⟩
    simp at hb
    rw [hb, ← hca]
    exact hinv.hashBound c hc
  · intro c hc
    rcases List.mem_append.mp hc with hc | hc
    · exact Nat.lt_succ_of_lt (hinv.hashBound c hc)
    · simp at hc
      rw [hc]
      exact Nat.lt_succ_self _
  · intro c hc p hp
    rcases List.mem_append.mp hc with hc | hc
    · rcases hinv.parentsReg c hc p hp with ⟨hlt, c2, hc2, hh2⟩
      exact ⟨hlt, c2, List.mem_append_left _ hc2, hh2⟩
    · simp at hc
      rw [hc] at hp ⊢
      rcases hps p hp with ⟨c2, hc2, hh2⟩
      refine ⟨?_, c2, List.mem_append_left _ hc2, hh2⟩
      show p < r.nextId
      rw [← hh2]
      exact hinv.hashBound c2 hc2
  · intro b hb h hbc
    rcases hinv.branchesReg b hb h hbc with ⟨c, hc, hh⟩
    exact ⟨c, List.mem_append_left _ hc, hh⟩
  · exact hinv.headBranch
  · exact hinv.namesNodup

theorem branchCommit_registered (r : Repo) (n : String) (h : Nat) (hinv : RepoInv r)
    (hbc : r.branchCommit n = some h) : ∃ c ∈ r.commits, c.hash = h := by
  unfold Repo.branchCommit Repo.findBranch at hbc
  rw [Option.bind_eq_some] at hbc
  obtain ⟨b, hb, hcb⟩ := hbc
  exact hinv.branchesReg b (List.mem_of_find?_eq_some hb) h hcb

theorem inv_init (r : Repo) (hinv : RepoInv r) : RepoInv r.init := by
  unfold Repo.init
  split
  · exact hinv
  · rename_i hguard
    rw [Bool.or_eq_true, not_or] at hguard
    obtain ⟨hh', hb'⟩ := hguard
    have hh : r.head = none := by
      cases hhead : r.head
      · rfl
      · rw [hhead] at hh'; simp at hh'
    have hb : r.branches = [] := by
      cases hbr : r.branches
      · rfl
      · rw [hbr] at hb'; simp at hb'
    rw [hb]
    constructor
    · exact hinv.hashSorted
    · exact hinv.hashBound
    · exact hinv.parentsReg
    · intro b hbm h hbc
      simp [setBranch] at hbm
      rw [hbm] at hbc
      simp at hbc
    · intro n hn
      simp at hn
      refine ⟨{ name := "main", commit := none }, ?_, hn⟩
      simp [setBranch]
    · simp [setBranch]

theorem inv_commit (r r' : Repo) (m : String) (c : Commit) (hinv : RepoInv r)
    (h : r.commit m = (Except.ok c, r')) : RepoInv r' := by
  unfold Repo.commit at h
  split at h
  · injection h with h1 _
    exact Except.noConfusion h1
  · rename_i hname heq
    dsimp only at h
    injection h with h1 h2
    rw [← h2]
    apply inv_setBranchCommit
    · rw [setCommit_eq_append _ _ (fun x hx => Nat.ne_of_lt (hinv.hashBound x hx))]
      exact ⟨_, List.mem_append_right _ (List.mem_singleton_self _), rfl⟩
    · apply inv_appendCommit
      · intro p hp
        cases hbc : r.branchCommit hname with
        | none => rw [hbc] at hp; simp at hp
        | some q =>
          rw [hbc] at hp
          simp at hp
          rw [hp]
          exact branchCommit_registered r hname q hinv hbc
      · exact hinv

theorem bind_findCommit_mem (r : Repo) (o : Option Nat) (x : Commit)
    (h : o.bind r.findCommit = some x) : x ∈ r.commits := by
  rw [Option.bind_eq_some] at h
  obtain ⟨a, _, hf⟩ := h
  unfold Repo.findCommit at hf
  exact List.mem_of_find?_eq_some hf

theorem inv_branch (r r' : Repo) (n : String) (b : Branch) (hinv : RepoInv r)
    (h : r.branch n = (Except.ok b, r')) : RepoInv r' := by
  unfold Repo.branch at h
  split at h
  · injection h with h1 _
    exact Except.noConfusion h1
  · rename_i hname heq
    split at h
    · injection h with h1 _
      exact Except.noConfusion h1
    · rename_i hnotin
      dsimp only at h
      injection h with h1 h2
      rw [← h2]
      have hnotin' : (r.branches.any fun x =>
          x.name == ({ name := n, commit := r.branchCommit hname } : Branch).name) = false := by
        simpa using hnotin
      have happ : setBranch r.branches { name := n, commit := r.branchCommit hname } =
          r.branches ++ [{ name := n, commit := r.branchCommit hname }] := by
        unfold setBranch
        rw [if_neg]
        rw [hnotin']
        simp
      constructor
      · exact hinv.hashSorted
      · exact hinv.hashBound
      · exact hinv.parentsReg
      · show ∀ b2 ∈ setBranch r.branches _, _
        rw [happ]
        intro b2 hb2 hc hbc
        rcases List.mem_append.mp hb2 with hb2 | hb2
        · exact hinv.branchesReg b2 hb2 hc hbc
        · simp at hb2
          rw [hb2] at hbc
          simp at hbc
          exact branchCommit_registered r hname hc hinv hbc
      · intro m hm
        rcases hinv.headBranch m hm with ⟨b2, hb2, hname2⟩
        show ∃ b3 ∈ setBranch r.branches _, _
        rw [happ]
        exact ⟨b2, List.mem_append_left _ hb2, hname2⟩
      · show ((setBranch r.branches _).map _).Nodup
        rw [happ, List.map_append]
        rw [List.nodup_append]
        refine ⟨hinv.namesNodup, by simp, ?_⟩
        intro a ha hb2
        simp at hb2
        rcases List.mem_map.mp ha with ⟨b2, hb2m, hname2⟩
        rw [List.any_eq_false] at hnotin'
        have := hnotin' b2 hb2m
        simp at this
        rw [hb2] at hname2
        exact this (by simpa using hname2)

theorem inv_checkout (r r' : Repo) (n : String) (hinv : RepoInv r)
    (h : r.checkout n = (Except.ok (), r')) : RepoInv r' := by
  unfold Repo.checkout at h
  split at h
  · rename_i hin
    injection h with _ h2
    rw [← h2]
    constructor
    · exact hinv.hashSorted
    · exact hinv.hashBound
    · exact hinv.parentsReg
    · exact hinv.branchesReg
    · intro m hm
      simp at hm
      rw [List.any_eq_true] at hin
      obtain ⟨b, hb, hbn⟩ := hin
      simp at hbn
      exact ⟨b, hb, by rw [hbn, hm]⟩
    · exact hinv.namesNodup
  · injection h with h1 _
    exact Except.noConfusion h1

theorem inv_merge (r r' : Repo) (bn m : String) (c : Commit) (hinv : RepoInv r)
    (h : r.merge bn m = (Except.ok c, r')) : RepoInv r' := by
  unfold Repo.merge at h
  split at h
  · injection h with h1 _
    exact Except.noConfusion h1
  · rename_i hname heq
    split at h
    · injection h with h1 _
      exact Except.noConfusion h1
    · rename_i tb htb
      dsimp only at h
      split at h
      · injection h with h1 _
        exact Except.noConfusion h1
      · rename_i target htarget
        split at h
        · injection h with h1 h2
          rw [← h2]
          exact inv_setBranchCommit r hname target.hash
            ⟨target, bind_findCommit_mem r tb.commit target htarget, rfl⟩ hinv
        · rename_i current hcurrent
          split at h
          · injection h with h1 h2
            rw [← h2]
            exact hinv
          · split at h
            · injection h with h1 h2
              rw [← h2]
              exact inv_setBranchCommit r hname target.hash
                ⟨target, bind_findCommit_mem r tb.commit target htarget, rfl⟩ hinv
            · injection h with h1 h2
              rw [← h2]
              apply inv_setBranchCommit
              · rw [setCommit_eq_append _ _
                  (fun x hx => Nat.ne_of_lt (hinv.hashBound x hx))]
                exact ⟨_, List.mem_append_right _ (List.mem_singleton_self _), rfl⟩
              · apply inv_appendCommit
                · intro p hp
                  simp at hp
                  rcases hp with hp | hp
                  · exact ⟨current, bind_findCommit_mem r _ current hcurrent, hp.symm⟩
                  · exact ⟨target, bind_findCommit_mem r tb.commit target htarget, hp.symm⟩
                · exact hinv

theorem applyOp_inv (r r' : Repo) (op : Op) (hinv : RepoInv r)
    (h : applyOp r op = some r') : RepoInv r' := by
  cases op with
  | opInit =>
    injection h with h1
    rw [← h1]
    exact inv_init r hinv
  | opCommit m =>
    simp only [applyOp] at h
    split at h
    · rename_i c r1 heq
      injection h with h1
      rw [← h1]
      exact inv_commit r r1 m c hinv heq
    · exact Option.noConfusion h
  | opBranch n =>
    simp only [applyOp] at h
    split at h
    · rename_i b r1 heq
      injection h with h1
      rw [← h1]
      exact inv_branch r r1 n b hinv heq
    · exact Option.noConfusion h
  | opCheckout n =>
    simp only [applyOp] at h
    split at h
    · rename_i u r1 heq
      injection h with h1
      rw [← h1]
      cases u
      exact inv_checkout r r1 n hinv heq
    · exact Option.noConfusion h
  | opMerge n m =>
    simp only [applyOp] at h
    split at h
    · rename_i c r1 heq
      injection h with h1
      rw [← h1]
      exact inv_merge r r1 n m c hinv heq
    · exact Option.noConfusion h

theorem runOps_inv (ops : List Op) : ∀ r r' : Repo,
    RepoInv r → runOps r ops = some r' → RepoInv r' := by
  induction ops with
  | nil =>
    intro r r' hinv h
    unfold runOps at h
    simp [List.foldlM] at h
    rw [← h]
    exact hinv
  | cons op ops ih =>
    intro r r' hinv h
    unfold runOps at h ih
    rw [List.foldlM_cons] at h
    rcases ho : applyOp r op with _ | r1
    · rw [ho] at h
      exact Option.noConfusion h
    · rw [ho] at h
      exact ih r1 r' (applyOp_inv r r1 op hinv ho) h

theorem reach_registered (cs : List Commit)
    (hpar : ∀ c ∈ cs, ∀ p ∈ c.parents, ∃ c2 ∈ cs, c2.hash = p) :
    ∀ s t, ReachHash cs s t → (∃ c ∈ cs, c.hash = s) → ∃ c ∈ cs, c.hash = t := by
  intro s t hr
  induction hr with
  | refl h => exact fun hs => hs
  | step c p t hc hp ht ih => exact fun _ => ih (hpar c hc p hp)

/-- C6: after every successfully applied operation sequence from the fresh
repository, (1) all registered commit ids are pairwise distinct, (2) every
parent of every registered commit occurs strictly earlier in the registry (no
forward references), and (3) every commit reachable from any branch's commit
pointer along transitive parent references is present in the id-to-Commit
mapping (no dangling parents). -/
theorem claim_C6 (ops : List Op) (r : Repo)
    (h : runOps Repo.initial ops = some r) :
    ((r.commits.map (fun c => c.hash)).Nodup) ∧
    (∀ i : Fin r.commits.length, ∀ p ∈ (r.commits.get i).parents,
      ∃ j : Fin r.commits.length, (j : Nat) < (i : Nat) ∧ (r.commits.get j).hash = p) ∧
    (∀ b ∈ r.branches, ∀ hc : Nat, b.commit = some hc →
      ∀ t, ReachHash r.commits hc t → ∃ c ∈ r.commits, c.hash = t) := by
  have hinv := runOps_inv ops Repo.initial r repoInv_initial h
  refine ⟨?_, ?_, ?_⟩
  · exact hinv.hashSorted.imp (fun hlt => Nat.ne_of_lt hlt)
  · intro i p hp
    have hmem : r.commits.get i ∈ r.commits := List.get_mem r.commits i.1 i.2
    rcases hinv.parentsReg _ hmem p hp with ⟨hlt, c2, hc2, hh2⟩
    rcases List.mem_iff_get.mp hc2 with ⟨j, hj⟩
    refine ⟨j, ?_, by rw [hj, hh2]⟩
    by_contra hge
    push_neg at hge
    rcases Nat.eq_or_lt_of_le hge with heqij | hltij
    · have hij : i = j := Fin.ext heqij
      subst hij
      rw [hj] at hlt
      rw [hh2] at hlt
      exact lt_irrefl p hlt
    · have hpw := List.pairwise_iff_getElem.mp hinv.hashSorted (i : Nat) (j : Nat)
        (by simpa using i.isLt) (by simpa using j.isLt) hltij
      rw [List.getElem_map, List.getElem_map] at hpw
      have hji : r.commits[(j : Nat)] = r.commits.get j := rfl
      have hii : r.commits[(i : Nat)] = r.commits.get i := rfl
      rw [hji, hii, hj, hh2] at hpw
      exact absurd (hpw.trans hlt) (lt_irrefl _)
  · intro b hb hc hbc t hr
    exact reach_registered r.commits
      (fun c hcm p hp => (hinv.parentsReg c hcm p hp).2) hc t hr
      (hinv.branchesReg b hb hc hbc)

/-- Repository reached by the full demo scenario ending in a divergent
merge. -/
def rC6 : Repo :=
  { commits := [{ hash := 1, message := "c1", parents := [] },
                { hash := 2, message := "c2", parents := [1] },
                { hash := 3, message := "c3", parents := [2] },
                { hash := 4, message := "c4", parents := [2] },
                { hash := 5, message := "M", parents := [4, 3] }],
    branches := [{ name := "main", commit := some 5 }, { name := "f", commit := some 3 }],
    head := some "main",
    nextId := 6 }

/-- C6, witness: the invariants applied to the state reached by the demo
scenario with a two-parent merge commit. -/
theorem claim_C6_witness :
    runOps Repo.initial
      [Op.opInit, Op.opCommit "c1", Op.opCommit "c2", Op.opBranch "f",
       Op.opCheckout "f", Op.opCommit "c3", Op.opCheckout "main",
       Op.opCommit "c4", Op.opMerge "f" "M"] = some rC6 ∧
    (((rC6.commits.map (fun c => c.hash)).Nodup) ∧
    (∀ i : Fin rC6.commits.length, ∀ p ∈ (rC6.commits.get i).parents,
      ∃ j : Fin rC6.commits.length, (j : Nat) < (i : Nat) ∧ (rC6.commits.get j).hash = p) ∧
    (∀ b ∈ rC6.branches, ∀ hc : Nat, b.commit = some hc →
      ∀ t, ReachHash rC6.commits hc t → ∃ c ∈ rC6.commits, c.hash = t)) :=
  ⟨rfl, claim_C6
    [Op.opInit, Op.opCommit "c1", Op.opCommit "c2", Op.opBranch "f",
     Op.opCheckout "f", Op.opCommit "c3", Op.opCheckout "main",
     Op.opCommit "c4", Op.opMerge "f" "M"] rC6 rfl⟩

/-- Coordinate triple (x, y, z); Python floats modelled exactly by `ℚ`. -/
abbrev Coord : Type := ℚ × ℚ × ℚ

/-- Coordinate dictionary `node id -> coordinate`. -/
abbrev CoordMap : Type := List (String × Coord)

/-- Python dict lookup (`d[k]` / `d.get(k)`): value at the unique key. -/
def dlookup {α : Type} (d : List (String × α)) (k : String) : Option α :=
  (d.find? (fun p => p.1 == k)).map (fun p => p.2)

/-- Python dict set-item: overwrite in place or append. -/
def dset {α : Type} (d : List (String × α)) (k : String) (v : α) : List (String × α) :=
  if d.any (fun p => p.1 == k) then
    d.map (fun p => if p.1 == k then (k, v) else p)
  else
    d ++ [(k, v)]

/-- Stable insertion into a sorted list: the new element goes before the first
element it is `le`-related to, so earlier-inserted equals stay first. -/
def insertSorted {α : Type} (le : α → α → Bool) (a : α) : List α → List α
  | [] => [a]
  | b :: bs => if le a b then a :: b :: bs else b :: insertSorted le a bs

/-- Stable sort modelling Python's `sorted` (insertion sort, stable for a total
`le`). -/
def sortIns {α : Type} (le : α → α → Bool) : List α → List α
  | [] => []
  | x :: xs => insertSorted le x (sortIns le xs)

/-- Python `int(s)` on the numeric commit-id strings the projector emits. -/
def strToInt (s : String) : Int :=
  s.toInt?.getD 0

/-- Stage 1 of `layout_engine.py` (`_split_nodes`): partition node ids by
kind. -/
def splitNodes (nodes : List GraphNode) :
    List String × List String × List String :=
  (((nodes.filter (fun n => n.kind == NodeKind.commit)).map (fun n => n.id)),
   ((nodes.filter (fun n => n.kind == NodeKind.branch)).map (fun n => n.id)),
   ((nodes.filter (fun n => n.kind == NodeKind.head)).map (fun n => n.id)))

/-- Stage 2 (`_layout_commits`): place the i-th commit (sorted by numeric id)
at `(i, 0, 0)` and derive the branch and HEAD column x offsets. -/
def layoutCommits (commitIds : List String) (coords : CoordMap) :
    CoordMap × ℚ × ℚ :=
  let coords1 := ((sortIns (fun a b => decide (strToInt a ≤ strToInt b)) commitIds).enum).foldl
    (fun cs p => dset cs p.2 (((p.1 : ℚ), 0, 0) : Coord)) coords
  let maxCommitX : ℚ :=
    match commitIds with
    | [] => 0
    | cid0 :: restIds =>
      restIds.foldl (fun acc cid => max acc (((dlookup coords1 cid).getD (0, 0, 0)).1))
        (((dlookup coords1 cid0).getD (0, 0, 0)).1)
  let branchX := maxCommitX + (1.5 : ℚ)
  let headX := branchX + (1 : ℚ)
  (coords1, branchX, headX)

/-- `_restore_previous_branch_z`: prior z of every branch id present in the
retained coordinates. -/
def restorePreviousBranchZ (prior : CoordMap) (branchIds : List String) :
    List (String × ℚ) :=
  branchIds.foldl (fun res bid =>
    match dlookup prior bid with
    | some c => dset res bid c.2.2
    | none => res) []

/-- Stage 3 (`_layout_branches`): reuse prior z for known branches; new
branches stack below the previous minimum, 0.6 apart, in sorted-name order. -/
def layoutBranches (prior : CoordMap) (branchIds : List String) (branchX : ℚ)
    (coords : CoordMap) : CoordMap :=
  let previousBranchZ := restorePreviousBranchZ prior branchIds
  let nextNewBranchZ : ℚ :=
    match previousBranchZ.map (fun p => p.2) with
    | [] => 0
    | z0 :: zs => (zs.foldl min z0) - (0.6 : ℚ)
  ((sortIns (fun a b => decide (a ≤ b)) branchIds).foldl
    (fun st bid =>
      match dlookup previousBranchZ bid with
      | some z => (dset st.1 bid ((branchX, 0, z) : Coord), st.2)
      | none => (dset st.1 bid ((branchX, 0, st.2) : Coord), st.2 - (0.6 : ℚ)))
    (coords, nextNewBranchZ)).1

/-- `_fallback_branch`: `main` when present, else the lexicographically first
branch, else none. -/
def fallbackBranch (branchIds : List String) : Option String :=
  if branchIds.contains "main" then some "main"
  else
    match sortIns (fun a b => decide (a ≤ b)) branchIds with
    | [] => none
    | b :: _ => some b

/-- Stage 4 (`_detect_active_branch`): target of the first
`HEAD --points_to--> branch` edge, else the fallback. -/
def detectActiveBranch (branchIds headIds : List String)
    (edges : List GraphEdge) : Option String :=
  match headIds with
  | [] => fallbackBranch branchIds
  | headId :: _ =>
    match edges.find? (fun e => e.kind == EdgeKind.pointsTo && e.source == headId &&
        branchIds.contains e.target) with
    | some e => some e.target
    | none => fallbackBranch branchIds

/-- Stage 5 (`_normalize_branch_column`): shift every branch's z uniformly so
the active branch lands at z = 0. -/
def normalizeBranchColumn (branchIds : List String)
    (activeBranchId : Option String) (coords : CoordMap) : CoordMap :=
  match activeBranchId with
  | none => coords
  | some aid =>
    match dlookup coords aid with
    | none => coords
    | some c =>
      let zShift := -c.2.2
      branchIds.foldl (fun cs bid =>
        match dlookup cs bid with
        | some q => dset cs bid ((q.1, q.2.1, q.2.2 + zShift) : Coord)
        | none => cs) coords

/-- Stage 6 (`_layout_heads`): HEAD nodes at `(headX, 0, 0)`. -/
def layoutHeads (headIds : List String) (headX : ℚ) (coords : CoordMap) :
    CoordMap :=
  headIds.foldl (fun cs hid => dset cs hid ((headX, 0, 0) : Coord)) coords

/-- `LayoutEngine.compute_layout`, with the retained `_node_coords` state made
an explicit `prior` argument; the returned map is also the retained state for
the next call. -/
def computeLayout (prior : CoordMap) (nodes : List GraphNode)
    (edges : List GraphEdge) : CoordMap :=
  let t := splitNodes nodes
  let c0 := layoutCommits t.1 []
  let coords2 := layoutBranches prior t.2.1 c0.2.1 c0.1
  let activeBranchId := detectActiveBranch t.2.1 t.2.2 edges
  let coords3 := normalizeBranchColumn t.2.1 activeBranchId coords2
  layoutHeads t.2.2 c0.2.2 coords3

/-- `GraphVisualizer.compute_layout` from `visualizer.py`, embedded as one
function mirroring the method body (the engine is its extracted refactor);
`prior` is the visualizer's own retained `_node_coords`. -/
def vizComputeLayout (prior : CoordMap) (nodes : List GraphNode)
    (edges : List GraphEdge) : CoordMap :=
  let commitIds := (nodes.filter (fun n => n.kind == NodeKind.commit)).map (fun n => n.id)
  let branchIds := (nodes.filter (fun n => n.kind == NodeKind.branch)).map (fun n => n.id)
  let headIds := (nodes.filter (fun n => n.kind == NodeKind.head)).map (fun n => n.id)
  let coords : CoordMap := []
  let coords := ((sortIns (fun a b => decide (strToInt a ≤ strToInt b)) commitIds).enum).foldl
    (fun cs p => dset cs p.2 (((p.1 : ℚ), 0, 0) : Coord)) coords
  let maxCommitX : ℚ :=
    match commitIds with
    | [] => 0
    | cid0 :: restIds =>
      restIds.foldl (fun acc cid => max acc (((dlookup coords cid).getD (0, 0, 0)).1))
        (((dlookup coords cid0).getD (0, 0, 0)).1)
  let branchX := maxCommitX + (1.5 : ℚ)
  let headX := branchX + (1 : ℚ)
  let oldBranchZ : List (String × ℚ) := branchIds.foldl (fun res bid =>
    match dlookup prior bid with
    | some c => dset res bid c.2.2
    | none => res) []
  let branchZStep : ℚ := 0.6
  let newZNext : ℚ :=
    match oldBranchZ.map (fun p => p.2) with
    | [] => 0
    | z0 :: zs => (zs.foldl min z0) - branchZStep
  let coords := ((sortIns (fun a b => decide (a ≤ b)) branchIds).foldl
    (fun st bid =>
      match dlookup oldBranchZ bid with
      | some z => (dset st.1 bid ((branchX, 0, z) : Coord), st.2)
      | none => (dset st.1 bid ((branchX, 0, st.2) : Coord), st.2 - branchZStep))
    (coords, newZNext)).1
  let activeBranchId : Option String :=
    match headIds with
    | [] => none
    | headId :: _ =>
      match edges.find? (fun e => e.kind == EdgeKind.pointsTo && e.source == headId &&
          branchIds.contains e.target) with
      | some e => some e.target
      | none => none
  let activeBranchId : Option String :=
    match activeBranchId with
    | some a => some a
    | none =>
      if branchIds.contains "main" then some "main"
      else
        match sortIns (fun a b => decide (a ≤ b)) branchIds with
        | [] => none
        | b :: _ => some b
  let coords :=
    match activeBranchId with
    | none => coords
    | some aid =>
      match dlookup coords aid with
      | none => coords
      | some c =>
        let shift := -c.2.2
        branchIds.foldl (fun cs bid =>
          match dlookup cs bid with
          | some q => dset cs bid ((q.1, q.2.1, q.2.2 + shift) : Coord)
          | none => cs) coords
  headIds.foldl (fun cs hid => dset cs hid ((headX, 0, 0) : Coord)) coords


/-- C10: the extracted `LayoutEngine.compute_layout` and the layout embedded in
`GraphVisualizer.compute_layout` agree on every input node list, edge list and
retained prior state; since each persists exactly its returned map, the
retained state after the call is identical as well. -/
theorem claim_C10 (prior : CoordMap) (nodes : List GraphNode)
    (edges : List GraphEdge) :
    computeLayout prior nodes edges = vizComputeLayout prior nodes edges := by
  unfold computeLayout vizComputeLayout splitNodes layoutCommits layoutBranches
    restorePreviousBranchZ detectActiveBranch fallbackBranch normalizeBranchColumn layoutHeads
  dsimp only
  generalize (List.map (fun n => n.id) (List.filter (fun n => n.kind == NodeKind.head) nodes)) = headIds
  generalize (List.map (fun n => n.id) (List.filter (fun n => n.kind == NodeKind.branch) nodes)) = branchIds
  cases headIds with
  | nil => rfl
  | cons headId tl =>
    dsimp only
    cases hf : edges.find? (fun e => e.kind == EdgeKind.pointsTo && e.source == headId &&
        branchIds.contains e.target) with
    | none => rfl
    | some e => rfl


theorem dlookup_nil {α : Type} (k : String) :
    dlookup ([] : List (String × α)) k = none := rfl

theorem dlookup_cons {α : Type} (p : String × α) (ps : List (String × α)) (k : String) :
    dlookup (p :: ps) k = if p.1 == k then some p.2 else dlookup ps k := by
  unfold dlookup
  rw [List.find?_cons]
  cases hb : (p.1 == k) with
  | true => simp [hb]
  | false => simp [hb]

theorem dlookup_map_upd {α : Type} (d : List (String × α)) (k k2 : String) (v : α)
    (hne : k2 ≠ k) :
    dlookup (d.map (fun p => if p.1 == k then (k, v) else p)) k2 = dlookup d k2 := by
  induction d with
  | nil => rfl
  | cons p ps ih =>
    rw [List.map_cons, dlookup_cons, dlookup_cons]
    by_cases hp : p.1 = k
    · have h1 : (p.1 == k) = true := by simpa using hp
      have h2 : ((k, v).1 == k2) = false := by
        simpa using fun h => hne h.symm
      have h3 : (p.1 == k2) = false := by
        simp only [beq_eq_false_iff_ne, ne_eq]
        intro hc
        exact hne (by rw [← hc, hp])
      rw [h1, if_pos rfl, h2, h3]
      simp only [Bool.false_eq_true, if_false]
      exact ih
    · have h1 : (p.1 == k) = false := by simpa using hp
      rw [h1]
      simp only [Bool.false_eq_true, if_false]
      cases hb : (p.1 == k2) with
      | true => simp
      | false =>
        simp only [Bool.false_eq_true, if_false]
        exact ih

theorem dlookup_append_right {α : Type} (d : List (String × α)) (k : String) (v : α)
    (hnone : dlookup d k = none) :
    dlookup (d ++ [(k, v)]) k = some v := by
  induction d with
  | nil => simp [dlookup]
  | cons p ps ih =>
    rw [List.cons_append, dlookup_cons]
    rw [dlookup_cons] at hnone
    cases hb : (p.1 == k) with
    | true => rw [hb] at hnone; simp at hnone
    | false =>
      rw [hb] at hnone
      simp only [Bool.false_eq_true, if_false] at hnone ⊢
      exact ih hnone

theorem dlookup_append_other {α : Type} (d : List (String × α)) (k k2 : String) (v : α)
    (hne : k2 ≠ k) :
    dlookup (d ++ [(k, v)]) k2 = dlookup d k2 := by
  induction d with
  | nil =>
    simp only [List.nil_append, dlookup_cons, dlookup_nil]
    have h1 : ((k, v).1 == k2) = false := by simpa using fun h => hne h.symm
    rw [h1]
    simp
  | cons p ps ih =>
    rw [List.cons_append, dlookup_cons, dlookup_cons]
    cases hb : (p.1 == k2) with
    | true => simp [hb]
    | false => simp [hb, ih]

theorem any_eq_false_of_dlookup_none {α : Type} (d : List (String × α)) (k : String)
    (h : dlookup d k = none) : (d.any fun p => p.1 == k) = false := by
  induction d with
  | nil => rfl
  | cons p ps ih =>
    rw [dlookup_cons] at h
    cases hb : (p.1 == k) with
    | true => rw [hb] at h; simp at h
    | false =>
      rw [hb] at h
      simp only [Bool.false_eq_true, if_false] at h
      simp [hb, ih h]

theorem dlookup_none_of_any_eq_false {α : Type} (d : List (String × α)) (k : String)
    (h : (d.any fun p => p.1 == k) = false) : dlookup d k = none := by
  induction d with
  | nil => rfl
  | cons p ps ih =>
    simp only [List.any_cons, Bool.or_eq_false_iff] at h
    rw [dlookup_cons, h.1]
    simp only [Bool.false_eq_true, if_false]
    exact ih h.2

theorem dlookup_dset_self {α : Type} (d : List (String × α)) (k : String) (v : α) :
    dlookup (dset d k v) k = some v := by
  unfold dset
  split
  · rename_i hany
    induction d with
    | nil => simp at hany
    | cons p ps ih =>
      rw [List.map_cons, dlookup_cons]
      by_cases hp : p.1 = k
      · have h1 : (p.1 == k) = true := by simpa using hp
        rw [h1, if_pos rfl]
        simp
      · have h1 : (p.1 == k) = false := by simpa using hp
        rw [h1]
        simp only [Bool.false_eq_true, if_false, h1]
        simp only [List.any_cons, h1, Bool.false_or] at hany
        exact ih hany
  · rename_i hany
    rw [Bool.not_eq_true] at hany
    exact dlookup_append_right d k v (dlookup_none_of_any_eq_false d k hany)

theorem dlookup_dset_other {α : Type} (d : List (String × α)) (k k2 : String) (v : α)
    (hne : k2 ≠ k) : dlookup (dset d k v) k2 = dlookup d k2 := by
  unfold dset
  split
  · exact dlookup_map_upd d k k2 v hne
  · exact dlookup_append_other d k k2 v hne

theorem insertSorted_perm {α : Type} (le : α → α → Bool) (a : α) (l : List α) :
    (insertSorted le a l).Perm (a :: l) := by
  induction l with
  | nil => exact List.Perm.refl _
  | cons b bs ih =>
    unfold insertSorted
    split
    · exact List.Perm.refl _
    · exact (List.Perm.cons b ih).trans (List.Perm.swap a b bs)

theorem sortIns_perm {α : Type} (le : α → α → Bool) (l : List α) :
    (sortIns le l).Perm l := by
  induction l with
  | nil => exact List.Perm.refl _
  | cons x xs ih =>
    unfold sortIns
    exact (insertSorted_perm le x (sortIns le xs)).trans (List.Perm.cons x ih)

theorem mem_sortIns {α : Type} (le : α → α → Bool) (l : List α) (a : α) :
    a ∈ sortIns le l ↔ a ∈ l :=
  (sortIns_perm le l).mem_iff

theorem nodup_sortIns {α : Type} (le : α → α → Bool) (l : List α) (h : l.Nodup) :
    (sortIns le l).Nodup :=
  ((sortIns_perm le l).nodup_iff).mpr h

theorem dset_eq_append {α : Type} (d : List (String × α)) (k : String) (v : α)
    (h : dlookup d k = none) : dset d k v = d ++ [(k, v)] := by
  unfold dset
  rw [if_neg]
  rw [any_eq_false_of_dlookup_none d k h]
  simp

theorem restore_general (prior : CoordMap) :
    ∀ (bids : List String) (acc : List (String × ℚ)),
      bids.Nodup → (∀ b ∈ bids, dlookup acc b = none) →
      bids.foldl (fun res bid =>
        match dlookup prior bid with
        | some c => dset res bid c.2.2
        | none => res) acc =
      acc ++ bids.filterMap (fun b => (dlookup prior b).map (fun c => (b, c.2.2))) := by
  intro bids
  induction bids with
  | nil => intro acc _ _; simp
  | cons b bs ih =>
    intro acc hnd hacc
    rw [List.foldl_cons, List.filterMap_cons]
    cases hp : dlookup prior b with
    | none =>
      dsimp only
      rw [ih acc (List.Nodup.of_cons hnd)
        (fun b2 hb2 => hacc b2 (List.mem_cons_of_mem _ hb2))]
      simp
    | some c =>
      dsimp only
      have hset : dset acc b c.2.2 = acc ++ [(b, c.2.2)] :=
        dset_eq_append acc b c.2.2 (hacc b (List.mem_cons_self _ _))
      rw [hset]
      rw [ih (acc ++ [(b, c.2.2)]) (List.Nodup.of_cons hnd) ?fresh]
      · simp
      case fresh =>
        intro b2 hb2
        have hne : b2 ≠ b := by
          intro hc
          rw [List.nodup_cons] at hnd
          exact hnd.1 (hc ▸ hb2)
        rw [dlookup_append_other acc b b2 c.2.2 hne]
        exact hacc b2 (List.mem_cons_of_mem _ hb2)

theorem restore_eq_filterMap (prior : CoordMap) (bids : List String) (hnd : bids.Nodup) :
    restorePreviousBranchZ prior bids =
      bids.filterMap (fun b => (dlookup prior b).map (fun c => (b, c.2.2))) := by
  unfold restorePreviousBranchZ
  rw [restore_general prior bids [] hnd (fun b _ => rfl)]
  simp

theorem dlookup_filterMap_not_mem (prior : CoordMap) (bids : List String) (b : String)
    (hb : b ∉ bids) :
    dlookup (bids.filterMap (fun x => (dlookup prior x).map (fun c => (x, c.2.2)))) b
      = none := by
  induction bids with
  | nil => rfl
  | cons b0 bs ih =>
    rw [List.filterMap_cons]
    have hne : b0 ≠ b := fun hc => hb (hc ▸ List.mem_cons_self _ _)
    have hb' : b ∉ bs := fun hc => hb (List.mem_cons_of_mem _ hc)
    cases hp : dlookup prior b0 with
    | none => exact ih hb'
    | some c =>
      rw [Option.map_some']
      rw [dlookup_cons]
      have : ((b0, c.2.2).1 == b) = false := by simpa using hne
      rw [this]
      simp only [Bool.false_eq_true, if_false]
      exact ih hb'

theorem dlookup_filterMap_mem (prior : CoordMap) (bids : List String) (b : String)
    (hnd : bids.Nodup) (hb : b ∈ bids) :
    dlookup (bids.filterMap (fun x => (dlookup prior x).map (fun c => (x, c.2.2)))) b
      = (dlookup prior b).map (fun c => c.2.2) := by
  induction bids with
  | nil => simp at hb
  | cons b0 bs ih =>
    rw [List.filterMap_cons]
    rcases List.mem_cons.mp hb with hb0 | hbs
    · subst hb0
      cases hp : dlookup prior b with
      | none =>
        have hnot : b ∉ bs := (List.nodup_cons.mp hnd).1
        simp [dlookup_filterMap_not_mem prior bs b hnot]
      | some c =>
        rw [Option.map_some', dlookup_cons]
        have : ((b, c.2.2).1 == b) = true := by simp
        rw [this]
        simp [hp]
    · have hne : b0 ≠ b := by
        intro hc
        exact (List.nodup_cons.mp hnd).1 (hc ▸ hbs)
      cases hp : dlookup prior b0 with
      | none => exact ih (List.Nodup.of_cons hnd) hbs
      | some c =>
        rw [Option.map_some', dlookup_cons]
        have : ((b0, c.2.2).1 == b) = false := by simpa using hne
        rw [this]
        simp only [Bool.false_eq_true, if_false]
        exact ih (List.Nodup.of_cons hnd) hbs

theorem filterMap_snd_eq (prior : CoordMap) (bids : List String) :
    (bids.filterMap (fun x => (dlookup prior x).map (fun c => (x, c.2.2)))).map
        (fun p => p.2) =
      (bids.filter (fun x => (dlookup prior x).isSome)).map
        (fun x => ((dlookup prior x).getD (0, 0, 0)).2.2) := by
  induction bids with
  | nil => rfl
  | cons b0 bs ih =>
    rw [List.filterMap_cons, List.filter_cons]
    cases hp : dlookup prior b0 with
    | none =>
      simp only [Option.map_none', Option.isSome_none, Bool.false_eq_true, if_false]
      exact ih
    | some c =>
      simp only [Option.map_some', Option.isSome_some, if_true, List.map_cons,
        Option.getD_some]
      rw [ih, hp]
      rfl

theorem branchFold_lookup (prevZ : List (String × ℚ)) (branchX : ℚ) :
    ∀ (l : List String) (cs : CoordMap) (nz : ℚ), l.Nodup →
      (∀ b ∈ l,
        dlookup ((l.foldl (fun st bid =>
            match dlookup prevZ bid with
            | some z => (dset st.1 bid ((branchX, 0, z) : Coord), st.2)
            | none => (dset st.1 bid ((branchX, 0, st.2) : Coord), st.2 - (0.6 : ℚ)))
          (cs, nz)).1) b =
          (match dlookup prevZ b with
           | some z => some ((branchX, 0, z) : Coord)
           | none => some ((branchX, 0, nz - (0.6 : ℚ) *
               (((l.filter (fun x => (dlookup prevZ x).isNone)).indexOf b : Nat) : ℚ)) :
               Coord))) ∧
      (∀ k, k ∉ l →
        dlookup ((l.foldl (fun st bid =>
            match dlookup prevZ bid with
            | some z => (dset st.1 bid ((branchX, 0, z) : Coord), st.2)
            | none => (dset st.1 bid ((branchX, 0, st.2) : Coord), st.2 - (0.6 : ℚ)))
          (cs, nz)).1) k = dlookup cs k) := by
  intro l
  induction l with
  | nil =>
    intro cs nz _
    exact ⟨fun b hb => absurd hb (List.not_mem_nil b), fun k _ => rfl⟩
  | cons b0 bs ih =>
    intro cs nz hnd
    have hb0nb : b0 ∉ bs := (List.nodup_cons.mp hnd).1
    rw [List.foldl_cons]
    cases hp0 : dlookup prevZ b0 with
    | some z0 =>
      dsimp only
      obtain ⟨ih1, ih2⟩ := ih (dset cs b0 ((branchX, 0, z0) : Coord)) nz
        (List.Nodup.of_cons hnd)
      constructor
      · intro b hb
        rcases List.mem_cons.mp hb with hb | hb
        · subst hb
          rw [ih2 b hb0nb, dlookup_dset_self, hp0]
        · rw [ih1 b hb]
          cases hpb : dlookup prevZ b with
          | some z => rfl
          | none =>
            have hfil : (b0 :: bs).filter (fun x => (dlookup prevZ x).isNone) =
                bs.filter (fun x => (dlookup prevZ x).isNone) := by
              rw [List.filter_cons]
              rw [hp0]
              simp
            rw [hfil]
      · intro k hk
        have hkb0 : k ≠ b0 := fun hc => hk (hc ▸ List.mem_cons_self _ _)
        have hkbs : k ∉ bs := fun hc => hk (List.mem_cons_of_mem _ hc)
        rw [ih2 k hkbs, dlookup_dset_other _ _ _ _ hkb0]
    | none =>
      dsimp only
      obtain ⟨ih1, ih2⟩ := ih (dset cs b0 ((branchX, 0, nz) : Coord)) (nz - (0.6 : ℚ))
        (List.Nodup.of_cons hnd)
      have hfil : (b0 :: bs).filter (fun x => (dlookup prevZ x).isNone) =
          b0 :: bs.filter (fun x => (dlookup prevZ x).isNone) := by
        rw [List.filter_cons]
        rw [hp0]
        simp
      constructor
      · intro b hb
        rcases List.mem_cons.mp hb with hb | hb
        · subst hb
          rw [ih2 b hb0nb, dlookup_dset_self, hp0, hfil, List.indexOf_cons_self]
          norm_num
        · rw [ih1 b hb]
          cases hpb : dlookup prevZ b with
          | some z => rfl
          | none =>
            have hbne : b0 ≠ b := fun hc => hb0nb (hc ▸ hb)
            rw [hfil, List.indexOf_cons_ne _ hbne]
            have : ((((bs.filter (fun x => (dlookup prevZ x).isNone)).indexOf b).succ :
                Nat) : ℚ) =
                (((bs.filter (fun x => (dlookup prevZ x).isNone)).indexOf b : Nat) : ℚ)
                  + 1 := by
              push_cast
              ring
            rw [this]
            ring_nf
      · intro k hk
        have hkb0 : k ≠ b0 := fun hc => hk (hc ▸ List.mem_cons_self _ _)
        have hkbs : k ∉ bs := fun hc => hk (List.mem_cons_of_mem _ hc)
        rw [ih2 k hkbs, dlookup_dset_other _ _ _ _ hkb0]

theorem normFold_lookup (shift : ℚ) :
    ∀ (l : List String) (cs : CoordMap), l.Nodup →
      (∀ b ∈ l, ∀ c : Coord, dlookup cs b = some c →
        dlookup (l.foldl (fun cs2 bid =>
          match dlookup cs2 bid with
          | some q => dset cs2 bid ((q.1, q.2.1, q.2.2 + shift) : Coord)
          | none => cs2) cs) b = some ((c.1, c.2.1, c.2.2 + shift) : Coord)) ∧
      (∀ k, k ∉ l →
        dlookup (l.foldl (fun cs2 bid =>
          match dlookup cs2 bid with
          | some q => dset cs2 bid ((q.1, q.2.1, q.2.2 + shift) : Coord)
          | none => cs2) cs) k = dlookup cs k) := by
  intro l
  induction l with
  | nil =>
    intro cs _
    exact ⟨fun b hb => absurd hb (List.not_mem_nil b), fun k _ => rfl⟩
  | cons b0 bs ih =>
    intro cs hnd
    have hb0nb : b0 ∉ bs := (List.nodup_cons.mp hnd).1
    rw [List.foldl_cons]
    cases hq : dlookup cs b0 with
    | some q =>
      dsimp only
      obtain ⟨ih1, ih2⟩ := ih (dset cs b0 ((q.1, q.2.1, q.2.2 + shift) : Coord))
        (List.Nodup.of_cons hnd)
      constructor
      · intro b hb c hc
        rcases List.mem_cons.mp hb with hb | hb
        · subst hb
          rw [hq] at hc
          injection hc with hc
          subst hc
          rw [ih2 b hb0nb, dlookup_dset_self]
        · have hbne : b ≠ b0 := fun hcq => hb0nb (hcq ▸ hb)
          exact ih1 b hb c (by rw [dlookup_dset_other _ _ _ _ hbne]; exact hc)
      · intro k hk
        have hkb0 : k ≠ b0 := fun hc => hk (hc ▸ List.mem_cons_self _ _)
        have hkbs : k ∉ bs := fun hc => hk (List.mem_cons_of_mem _ hc)
        rw [ih2 k hkbs, dlookup_dset_other _ _ _ _ hkb0]
    | none =>
      dsimp only
      obtain ⟨ih1, ih2⟩ := ih cs (List.Nodup.of_cons hnd)
      constructor
      · intro b hb c hc
        rcases List.mem_cons.mp hb with hb | hb
        · subst hb
          rw [hq] at hc
          exact Option.noConfusion hc
        · exact ih1 b hb c hc
      · intro k hk
        exact ih2 k (fun hc => hk (List.mem_cons_of_mem _ hc))

theorem headsFold_other (l : List String) (hx : ℚ) :
    ∀ (cs : CoordMap) (k : String), k ∉ l →
      dlookup (layoutHeads l hx cs) k = dlookup cs k := by
  induction l with
  | nil => intro cs k _; rfl
  | cons h0 hs ih =>
    intro cs k hk
    have hkh0 : k ≠ h0 := fun hc => hk (hc ▸ List.mem_cons_self _ _)
    unfold layoutHeads at ih ⊢
    rw [List.foldl_cons]
    rw [ih _ k (fun hc => hk (List.mem_cons_of_mem _ hc))]
    exact dlookup_dset_other _ _ _ _ hkh0

theorem foldl_min_le_init (zs : List ℚ) : ∀ a : ℚ, zs.foldl min a ≤ a := by
  induction zs with
  | nil => intro a; exact le_refl a
  | cons z1 zs ih =>
    intro a
    rw [List.foldl_cons]
    exact le_trans (ih (min a z1)) (min_le_left a z1)

theorem foldl_min_le (zs : List ℚ) : ∀ (z0 z : ℚ), z ∈ z0 :: zs → zs.foldl min z0 ≤ z := by
  induction zs with
  | nil =>
    intro z0 z hz
    simp at hz
    simp [hz]
  | cons z1 zs ih =>
    intro z0 z hz
    rw [List.foldl_cons]
    rcases List.mem_cons.mp hz with hz | hz
    · exact le_trans (le_trans (foldl_min_le_init zs (min z0 z1)) (min_le_left z0 z1))
        (le_of_eq hz.symm)
    · rcases List.mem_cons.mp hz with hz | hz
      · exact le_trans (le_trans (foldl_min_le_init zs (min z0 z1)) (min_le_right z0 z1))
          (le_of_eq hz.symm)
      · exact ih (min z0 z1) z (List.mem_cons_of_mem _ hz)

theorem detect_mem (branchIds headIds : List String) (edges : List GraphEdge)
    (hne : branchIds ≠ []) :
    ∃ a, detectActiveBranch branchIds headIds edges = some a ∧ a ∈ branchIds := by
  have hfall : ∃ a, fallbackBranch branchIds = some a ∧ a ∈ branchIds := by
    unfold fallbackBranch
    by_cases hm : branchIds.contains "main"
    · exact ⟨"main", by rw [if_pos hm], by simpa using hm⟩
    · rw [if_neg hm]
      cases hs : sortIns (fun a b => decide (a ≤ b)) branchIds with
      | nil =>
        have hperm := sortIns_perm (fun a b : String => decide (a ≤ b)) branchIds
        rw [hs] at hperm
        exact absurd hperm.symm.eq_nil hne
      | cons a rest =>
        refine ⟨a, rfl, ?_⟩
        have : a ∈ sortIns (fun a b => decide (a ≤ b)) branchIds := by
          rw [hs]; exact List.mem_cons_self _ _
        exact (mem_sortIns _ _ _).mp this
  unfold detectActiveBranch
  cases headIds with
  | nil => exact hfall
  | cons headId tl =>
    dsimp only
    cases hf : edges.find? (fun e => e.kind == EdgeKind.pointsTo && e.source == headId &&
        branchIds.contains e.target) with
    | none => exact hfall
    | some e =>
      refine ⟨e.target, rfl, ?_⟩
      have := List.find?_some hf
      simp only [Bool.and_eq_true] at this
      simpa using this.2

/-- Start value for newly introduced branches: 0.6 below the minimum reused
prior z, or 0.0 when no prior z is reused (the first new branch receives this
value itself). -/
def newBranchStart (prior : CoordMap) (bids : List String) : ℚ :=
  match (bids.filter (fun b => (dlookup prior b).isSome)).map
      (fun b => ((dlookup prior b).getD (0, 0, 0)).2.2) with
  | [] => 0
  | z0 :: zs => (zs.foldl min z0) - (0.6 : ℚ)

/-- Rank of a newly introduced branch among the new branches in sorted-name
processing order. -/
def newBranchRank (prior : CoordMap) (bids : List String) (b : String) : Nat :=
  ((sortIns (fun x y => decide (x ≤ y)) bids).filter
    (fun x => (dlookup prior x).isNone)).indexOf b

theorem layoutBranches_lookup (prior : CoordMap) (bids : List String) (bx : ℚ)
    (cs : CoordMap) (hnd : bids.Nodup) (b : String) (hb : b ∈ bids) :
    dlookup (layoutBranches prior bids bx cs) b =
      (match dlookup prior b with
       | some c => some ((bx, 0, c.2.2) : Coord)
       | none => some ((bx, 0, newBranchStart prior bids -
           (0.6 : ℚ) * ((newBranchRank prior bids b : Nat) : ℚ)) : Coord)) := by
  unfold layoutBranches
  dsimp only
  have hsortNd := nodup_sortIns (fun x y : String => decide (x ≤ y)) bids hnd
  have hbS : b ∈ sortIns (fun x y : String => decide (x ≤ y)) bids :=
    (mem_sortIns _ _ _).mpr hb
  have hres := restore_eq_filterMap prior bids hnd
  have hmain := (branchFold_lookup (restorePreviousBranchZ prior bids) bx
    (sortIns (fun x y : String => decide (x ≤ y)) bids) cs
    (match (restorePreviousBranchZ prior bids).map (fun p => p.2) with
     | [] => (0 : ℚ)
     | z0 :: zs => (zs.foldl min z0) - (0.6 : ℚ)) hsortNd).1 b hbS
  rw [hmain]
  have hlook : dlookup (restorePreviousBranchZ prior bids) b =
      (dlookup prior b).map (fun c => c.2.2) := by
    rw [hres]
    exact dlookup_filterMap_mem prior bids b hnd hb
  have hnz : (match (restorePreviousBranchZ prior bids).map (fun p => p.2) with
      | [] => (0 : ℚ)
      | z0 :: zs => (zs.foldl min z0) - (0.6 : ℚ)) = newBranchStart prior bids := by
    unfold newBranchStart
    rw [hres, filterMap_snd_eq]
  have hrank : ((sortIns (fun x y : String => decide (x ≤ y)) bids).filter
      (fun x => (dlookup (restorePreviousBranchZ prior bids) x).isNone)).indexOf b =
      newBranchRank prior bids b := by
    unfold newBranchRank
    congr 1
    apply List.filter_congr
    intro x hx
    have hxB : x ∈ bids := (mem_sortIns _ _ _).mp hx
    rw [hres, dlookup_filterMap_mem prior bids x hnd hxB]
    cases dlookup prior x <;> rfl
  rw [hlook, hnz, hrank]
  cases dlookup prior b with
  | none => rfl
  | some c => rfl

/-- C3: every branch id with a retained prior coordinate keeps its prior z up
to one uniform shift shared by all branches (so relative differences among
previously placed branches are unchanged); every branch id with no prior entry
receives `newBranchStart - 0.6 * rank` (plus the same shift), i.e. values
stepping down by 0.6 in sorted-name order starting 0.6 below the minimum
reused prior z (or at 0.0 when nothing is reused); and whenever some prior z
is reused, every new branch lands strictly below every reused one.  The two
hypotheses state the projector's output typing: branch ids are distinct and
disjoint from head ids. -/
theorem claim_C3 (prior : CoordMap) (nodes : List GraphNode) (edges : List GraphEdge)
    (hnd : (splitNodes nodes).2.1.Nodup)
    (hdisj : ∀ b ∈ (splitNodes nodes).2.1, b ∉ (splitNodes nodes).2.2) :
    ∃ shift : ℚ,
      (∀ b ∈ (splitNodes nodes).2.1, ∀ c : Coord, dlookup prior b = some c →
        ∃ x2 y2 : ℚ, dlookup (computeLayout prior nodes edges) b =
          some ((x2, y2, c.2.2 + shift) : Coord)) ∧
      (∀ b ∈ (splitNodes nodes).2.1, dlookup prior b = none →
        ∃ x2 y2 : ℚ, dlookup (computeLayout prior nodes edges) b =
          some ((x2, y2, newBranchStart prior (splitNodes nodes).2.1 -
            (0.6 : ℚ) * ((newBranchRank prior (splitNodes nodes).2.1 b : Nat) : ℚ) +
            shift) : Coord)) ∧
      (∀ b ∈ (splitNodes nodes).2.1, dlookup prior b = none →
        ∀ b2 ∈ (splitNodes nodes).2.1, ∀ c2 : Coord, dlookup prior b2 = some c2 →
        ∀ cb cb2 : Coord,
          dlookup (computeLayout prior nodes edges) b = some cb →
          dlookup (computeLayout prior nodes edges) b2 = some cb2 →
          cb.2.2 < cb2.2.2) := by
  by_cases hempty : (splitNodes nodes).2.1 = []
  · refine ⟨0, ?_, ?_, ?_⟩
    · intro b hb
      rw [hempty] at hb
      exact absurd hb (List.not_mem_nil b)
    · intro b hb
      rw [hempty] at hb
      exact absurd hb (List.not_mem_nil b)
    · intro b hb
      rw [hempty] at hb
      exact absurd hb (List.not_mem_nil b)
  · obtain ⟨a, ha, haMem⟩ := detect_mem (splitNodes nodes).2.1 (splitNodes nodes).2.2
      edges hempty
    have hout : computeLayout prior nodes edges =
        layoutHeads (splitNodes nodes).2.2 (layoutCommits (splitNodes nodes).1 []).2.2
          (normalizeBranchColumn (splitNodes nodes).2.1
            (detectActiveBranch (splitNodes nodes).2.1 (splitNodes nodes).2.2 edges)
            (layoutBranches prior (splitNodes nodes).2.1
              (layoutCommits (splitNodes nodes).1 []).2.1
              (layoutCommits (splitNodes nodes).1 []).1)) := rfl
    obtain ⟨za, hza⟩ : ∃ za : ℚ,
        dlookup (layoutBranches prior (splitNodes nodes).2.1
          (layoutCommits (splitNodes nodes).1 []).2.1
          (layoutCommits (splitNodes nodes).1 []).1) a =
        some (((layoutCommits (splitNodes nodes).1 []).2.1, 0, za) : Coord) := by
      have h2 := layoutBranches_lookup prior (splitNodes nodes).2.1
        (layoutCommits (splitNodes nodes).1 []).2.1
        (layoutCommits (splitNodes nodes).1 []).1 hnd a haMem
      cases hpa : dlookup prior a with
      | none =>
        rw [hpa] at h2
        dsimp only at h2
        exact ⟨_, h2⟩
      | some c =>
        rw [hpa] at h2
        dsimp only at h2
        exact ⟨_, h2⟩
    have hC3 : normalizeBranchColumn (splitNodes nodes).2.1
        (detectActiveBranch (splitNodes nodes).2.1 (splitNodes nodes).2.2 edges)
        (layoutBranches prior (splitNodes nodes).2.1
          (layoutCommits (splitNodes nodes).1 []).2.1
          (layoutCommits (splitNodes nodes).1 []).1) =
        (splitNodes nodes).2.1.foldl (fun cs2 bid =>
          match dlookup cs2 bid with
          | some q => dset cs2 bid ((q.1, q.2.1, q.2.2 + -za) : Coord)
          | none => cs2)
        (layoutBranches prior (splitNodes nodes).2.1
          (layoutCommits (splitNodes nodes).1 []).2.1
          (layoutCommits (splitNodes nodes).1 []).1) := by
      unfold normalizeBranchColumn
      rw [ha]
      dsimp only
      rw [hza]
      rfl
    obtain ⟨hn1, _⟩ := normFold_lookup (-za) (splitNodes nodes).2.1
      (layoutBranches prior (splitNodes nodes).2.1
        (layoutCommits (splitNodes nodes).1 []).2.1
        (layoutCommits (splitNodes nodes).1 []).1) hnd
    have hval : ∀ b ∈ (splitNodes nodes).2.1, ∀ x y z : ℚ,
        dlookup (layoutBranches prior (splitNodes nodes).2.1
          (layoutCommits (splitNodes nodes).1 []).2.1
          (layoutCommits (splitNodes nodes).1 []).1) b = some ((x, y, z) : Coord) →
        dlookup (computeLayout prior nodes edges) b =
          some ((x, y, z + -za) : Coord) := by
      intro b hb x y z hc
      rw [hout, headsFold_other _ _ _ b (hdisj b hb), hC3]
      exact hn1 b hb ((x, y, z) : Coord) hc
    refine ⟨-za, ?_, ?_, ?_⟩
    · intro b hb c hp
      have h2 := layoutBranches_lookup prior (splitNodes nodes).2.1
        (layoutCommits (splitNodes nodes).1 []).2.1
        (layoutCommits (splitNodes nodes).1 []).1 hnd b hb
      rw [hp] at h2
      dsimp only at h2
      exact ⟨_, _, hval b hb _ _ _ h2⟩
    · intro b hb hp
      have h2 := layoutBranches_lookup prior (splitNodes nodes).2.1
        (layoutCommits (splitNodes nodes).1 []).2.1
        (layoutCommits (splitNodes nodes).1 []).1 hnd b hb
      rw [hp] at h2
      dsimp only at h2
      exact ⟨_, _, hval b hb _ _ _ h2⟩
    · intro b hb hp b2 hb2 c2 hp2 cb cb2 hcb hcb2
      have h2 := layoutBranches_lookup prior (splitNodes nodes).2.1
        (layoutCommits (splitNodes nodes).1 []).2.1
        (layoutCommits (splitNodes nodes).1 []).1 hnd b hb
      rw [hp] at h2
      dsimp only at h2
      have h22 := layoutBranches_lookup prior (splitNodes nodes).2.1
        (layoutCommits (splitNodes nodes).1 []).2.1
        (layoutCommits (splitNodes nodes).1 []).1 hnd b2 hb2
      rw [hp2] at h22
      dsimp only at h22
      have hv1 := hval b hb _ _ _ h2
      have hv2 := hval b2 hb2 _ _ _ h22
      rw [hcb] at hv1
      rw [hcb2] at hv2
      injection hv1 with hv1
      injection hv2 with hv2
      subst hv1
      subst hv2
      dsimp only
      have hmem2 : c2.2.2 ∈ ((splitNodes nodes).2.1.filter
          (fun x => (dlookup prior x).isSome)).map
          (fun x => ((dlookup prior x).getD (0, 0, 0)).2.2) := by
        apply List.mem_map.mpr
        refine ⟨b2, ?_, by rw [hp2]; rfl⟩
        apply List.mem_filter.mpr
        exact ⟨hb2, by rw [hp2]; rfl⟩
      cases hzl : ((splitNodes nodes).2.1.filter
          (fun x => (dlookup prior x).isSome)).map
          (fun x => ((dlookup prior x).getD (0, 0, 0)).2.2) with
      | nil =>
        rw [hzl] at hmem2
        exact absurd hmem2 (List.not_mem_nil _)
      | cons z0 zs =>
        rw [hzl] at hmem2
        have hmin : zs.foldl min z0 ≤ c2.2.2 := foldl_min_le zs z0 c2.2.2 hmem2
        have hstart : newBranchStart prior (splitNodes nodes).2.1 =
            zs.foldl min z0 - (0.6 : ℚ) := by
          unfold newBranchStart
          rw [hzl]
        have hrk : (0 : ℚ) ≤ ((newBranchRank prior (splitNodes nodes).2.1 b : Nat) : ℚ) := by
          positivity
        rw [hstart]
        nlinarith [hmin, hrk]

/-- First-layout node list of the continuity scenario: HEAD, `main`,
`feature`. -/
def nodesC3a : List GraphNode :=
  [{ id := "HEAD", kind := NodeKind.head, label := "HEAD" },
   { id := "main", kind := NodeKind.branch, label := "main" },
   { id := "feature", kind := NodeKind.branch, label := "feature" }]

/-- Second-layout node list: a new branch `hotfix` appears. -/
def nodesC3b : List GraphNode :=
  [{ id := "HEAD", kind := NodeKind.head, label := "HEAD" },
   { id := "main", kind := NodeKind.branch, label := "main" },
   { id := "feature", kind := NodeKind.branch, label := "feature" },
   { id := "hotfix", kind := NodeKind.branch, label := "hotfix" }]

/-- HEAD stays on `main` in both layouts. -/
def edgesC3 : List GraphEdge :=
  [{ source := "HEAD", target := "main", kind := EdgeKind.pointsTo }]

/-- Retained engine state after the first layout. -/
def priorC3 : CoordMap := computeLayout [] nodesC3a edgesC3

/-- C3, witness: the layout-continuity statement applied to the spec's
scenario — `{main, feature}` laid out once, then `{main, feature, hotfix}`
through the same retained state. -/
theorem claim_C3_witness :
    ∃ shift : ℚ,
      (∀ b ∈ (splitNodes nodesC3b).2.1, ∀ c : Coord, dlookup priorC3 b = some c →
        ∃ x2 y2 : ℚ, dlookup (computeLayout priorC3 nodesC3b edgesC3) b =
          some ((x2, y2, c.2.2 + shift) : Coord)) ∧
      (∀ b ∈ (splitNodes nodesC3b).2.1, dlookup priorC3 b = none →
        ∃ x2 y2 : ℚ, dlookup (computeLayout priorC3 nodesC3b edgesC3) b =
          some ((x2, y2, newBranchStart priorC3 (splitNodes nodesC3b).2.1 -
            (0.6 : ℚ) * ((newBranchRank priorC3 (splitNodes nodesC3b).2.1 b : Nat) : ℚ) +
            shift) : Coord)) ∧
      (∀ b ∈ (splitNodes nodesC3b).2.1, dlookup priorC3 b = none →
        ∀ b2 ∈ (splitNodes nodesC3b).2.1, ∀ c2 : Coord, dlookup priorC3 b2 = some c2 →
        ∀ cb cb2 : Coord,
          dlookup (computeLayout priorC3 nodesC3b edgesC3) b = some cb →
          dlookup (computeLayout priorC3 nodesC3b edgesC3) b2 = some cb2 →
          cb.2.2 < cb2.2.2) :=
  claim_C3 priorC3 nodesC3b edgesC3 (by decide) (by decide)
